import Mathlib

/-!
Verification of the goroutine-lowering pass (compiler/goroutine-lowering.go)
and the heap-to-stack allocation optimizer (transform/allocs.go) of this
repository, over a shallow embedding of the relevant LLVM-IR structures.

The embedding models an IR function as a list of named basic blocks, each a
list of instructions.  Instructions carry SSA result registers (`Nat`) and
operand values.  Runtime intrinsics are identified by their function name,
exactly as the pass looks them up with `mod.NamedFunction`.
-/

namespace TinyGo

/-- LLVM types, at the granularity the pass inspects them. -/
inductive Ty where
  | void
  | i1
  | i8
  | i32
  | token
  | i8ptr
  | taskState
  | tptr (t : Ty)
  | tint (w : Nat)
  | tarray (bits : Nat) (n : Nat)
  | tother (n : Nat)
deriving DecidableEq

/-- IR values appearing as operands. -/
inductive Val where
  | reg (n : Nat)
  | undef (t : Ty)
  | nullv (t : Ty)
  | cint (t : Ty) (v : Nat)
  | zeroInit (t : Ty)
  | param (s : String)
deriving DecidableEq

/-- IR instructions, at the granularity the pass inspects and creates them.
`call` carries the result register (none for void calls), the callee's return
type, the callee name (direct calls; the pass only inspects direct callees)
and the argument list; the trailing argument slot is the `parentHandle`
position (operand `OperandsCount()-2` in the source). -/
inductive Inst where
  | call (res : Option Nat) (rty : Ty) (callee : String) (args : List Val)
  | ret (v : Option Val)
  | alloca (res : Nat) (t : Ty) (nm : String)
  | bitcast (res : Nat) (v : Val) (t : Ty) (nm : String)
  | load (res : Nat) (t : Ty) (p : Val) (nm : String)
  | store (v : Val) (p : Val)
  | br (dest : String)
  | switchI (v : Val) (dflt : String) (cases : List (Nat × String))
  | intcast (res : Nat) (v : Val) (t : Ty)
  | miscI (res : Option Nat) (t : Ty) (ops : List Val)
deriving DecidableEq

/-- A basic block: a name and an ordered instruction list. -/
structure BB where
  bname : String
  insts : List Inst
deriving DecidableEq

/-- An IR function: name, return type, parameters (name, type) and blocks.
The first block is the entry block. -/
structure Fn where
  fname : String
  retTy : Ty
  params : List (String × Ty)
  blocks : List BB
deriving DecidableEq

def yieldName : String := "runtime.yield"
def getCoroutineName : String := "runtime.getCoroutine"
def getParentHandleName : String := "runtime.getParentHandle"
def activateTaskName : String := "runtime.activateTask"
def setTaskStatePtrName : String := "runtime.setTaskStatePtr"
def getTaskStatePtrName : String := "runtime.getTaskStatePtr"
def makeGoroutineName : String := "runtime.makeGoroutine"
def getFakeCoroutineName : String := "runtime.getFakeCoroutine"
def allocName : String := "runtime.alloc"
def freeName : String := "runtime.free"
def noretName : String := "runtime.noret"
def avrSleepName : String := "runtime.avrSleep"
def timeSleepName : String := "time.Sleep"
def trackPointerName : String := "runtime.trackPointer"
def coroIdName : String := "llvm.coro.id"
def coroSizeName : String := "llvm.coro.size.i32"
def coroBeginName : String := "llvm.coro.begin"
def coroSuspendName : String := "llvm.coro.suspend"
def coroEndName : String := "llvm.coro.end"
def coroFreeName : String := "llvm.coro.free"

/-- The callee name of a direct call instruction. -/
def calleeOf : Inst → Option String
  | .call _ _ c _ => some c
  | _ => none

/-- Whether an instruction is a direct call to the named function. -/
def isCallTo (nm : String) (i : Inst) : Bool :=
  match i with
  | .call _ _ c _ => c = nm
  | _ => false

/-- Whether an instruction is a return. -/
def isRet : Inst → Bool
  | .ret _ => true
  | _ => false

/-- Number of calls to `nm` in an instruction list. -/
def countIn (nm : String) (l : List Inst) : Nat :=
  (l.filter (isCallTo nm)).length

/-- Number of calls to `nm` in a function. -/
def countFn (nm : String) (f : Fn) : Nat :=
  (f.blocks.map (fun b => countIn nm b.insts)).sum

/-- Number of return instructions in a list / function. -/
def countRetIn (l : List Inst) : Nat := (l.filter isRet).length

def countRetFn (f : Fn) : Nat := (f.blocks.map (fun b => countRetIn b.insts)).sum

/-! ## C10 — transform/allocs.go: escape analysis and stack allocation

`mayEscape` walks the def-use tree of the allocated pointer.  We embed the
use structure of a value as a tree: each node records the kind of using
instruction, and for `getelementptr`/`bitcast` users (through which the
analysis recurses) the uses of that user. -/

/-- One use of a pointer value, as classified by `mayEscape`:
`gep`/`bitcastU` carry their own uses (the analysis recurses through them),
`storeU ptrIsStored` records whether the pointer itself is the stored operand
(`use.Operand(0) == value`), `callU nocapture` records whether the argument
has the `nocapture` flag at this call, `icmpU` is a pointer comparison, and
`otherU` is any other instruction kind. -/
inductive UseTree where
  | gep (uses : List UseTree)
  | bitcastU (uses : List UseTree)
  | loadU
  | storeU (ptrIsStored : Bool)
  | callU (nocapture : Bool)
  | icmpU
  | otherU

/-- `mayEscape` from transform/allocs.go, folded over the use list of a
value.  The source returns `true` on the first escaping use; the recursion
through `gep` and `bitcast` uses is `mayEscape(use)`. -/
def mayEscapeL : List UseTree → Bool
  | [] => false
  | .gep us :: rest => mayEscapeL us || mayEscapeL rest
  | .bitcastU us :: rest => mayEscapeL us || mayEscapeL rest
  | .loadU :: rest => mayEscapeL rest
  | .storeU b :: rest => b || mayEscapeL rest
  | .callU nc :: rest => !nc || mayEscapeL rest
  | .icmpU :: rest => mayEscapeL rest
  | .otherU :: _ => true

/-- A call site of `runtime.alloc`, as inspected by `OptimizeAllocs`:
the size operand (`none` when not an LLVM constant), the uses of the
returned pointer, and the pointer type of the value that is replaced
(the type of the bitcast, or `i8*` if the bitcast was dropped). -/
structure AllocSite where
  szConst : Option Nat
  uses : List UseTree
  castTy : Ty

/-- `maxStackAlloc` from transform/allocs.go. -/
def maxStackAlloc : Nat := 256

/-- The value whose escape is checked: when the alloc call has exactly one
use and it is a bitcast, the analysis starts from that bitcast's uses,
otherwise from the alloc call's own uses. -/
def escapeRoot (s : AllocSite) : List UseTree :=
  match s.uses with
  | [UseTree.bitcastU us] => us
  | l => l

/-- `OptimizeAllocs` for one `runtime.alloc` call site: returns the
replacement instruction sequence (inserted in the entry block) when the
allocation is moved to the stack, and `none` when the call is left as a
heap allocation.  `align` is `targetData.ABITypeAlignment(i8ptrType)`.
Fresh registers are `k` and `k+1`. -/
def optimizeAllocSite (align k : Nat) (s : AllocSite) : Option (List Inst) :=
  match s.szConst with
  | none => none
  | some size =>
    if size > maxStackAlloc then none
    else if mayEscapeL (escapeRoot s) then none
    else
      let sizeInWords := (size + align - 1) / align
      let allocaType := Ty.tarray (align * 8) sizeInWords
      some [Inst.alloca k allocaType ("stackalloc.alloca"),
            Inst.store (Val.zeroInit allocaType) (Val.reg k),
            Inst.bitcast (k+1) (Val.reg k) s.castTy ("stackalloc")]

/-- Modelled from the spec (claim C10's words): a use that does not let the
pointer escape is a getelementptr or bitcast all of whose own transitive
uses are fine, a load, a store of another value into the pointer, a call
passing it as a `nocapture` argument, or a pointer comparison. -/
inductive GoodUse : UseTree → Prop
  | gep (us : List UseTree) : (∀ u ∈ us, GoodUse u) → GoodUse (.gep us)
  | bc (us : List UseTree) : (∀ u ∈ us, GoodUse u) → GoodUse (.bitcastU us)
  | ld : GoodUse .loadU
  | st : GoodUse (.storeU false)
  | call : GoodUse (.callU true)
  | icmp : GoodUse .icmpU

theorem mayEscapeL_eq_false_iff (l : List UseTree) :
    mayEscapeL l = false ↔ ∀ u ∈ l, GoodUse u := by
  induction l using mayEscapeL.induct with
  | case1 =>
    simp [mayEscapeL]
  | case2 us rest ih1 ih2 =>
    simp only [mayEscapeL, Bool.or_eq_false_iff]
    constructor
    · rintro ⟨h1, h2⟩ u hu
      rcases List.mem_cons.1 hu with h | h
      · subst h; exact GoodUse.gep us (ih1.1 h1)
      · exact (ih2.1 h2) u h
    · intro h
      refine ⟨ih1.2 ?_, ih2.2 ?_⟩
      · have := h _ (List.mem_cons_self _ _)
        cases this with
        | gep _ hus => exact hus
      · exact fun u hu => h u (List.mem_cons_of_mem _ hu)
  | case3 us rest ih1 ih2 =>
    simp only [mayEscapeL, Bool.or_eq_false_iff]
    constructor
    · rintro ⟨h1, h2⟩ u hu
      rcases List.mem_cons.1 hu with h | h
      · subst h; exact GoodUse.bc us (ih1.1 h1)
      · exact (ih2.1 h2) u h
    · intro h
      refine ⟨ih1.2 ?_, ih2.2 ?_⟩
      · have := h _ (List.mem_cons_self _ _)
        cases this with
        | bc _ hus => exact hus
      · exact fun u hu => h u (List.mem_cons_of_mem _ hu)
  | case4 rest ih =>
    simp only [mayEscapeL]
    constructor
    · intro h u hu
      rcases List.mem_cons.1 hu with h' | h'
      · subst h'; exact GoodUse.ld
      · exact (ih.1 h) u h'
    · intro h; exact ih.2 fun u hu => h u (List.mem_cons_of_mem _ hu)
  | case5 b rest ih =>
    simp only [mayEscapeL, Bool.or_eq_false_iff]
    constructor
    · rintro ⟨h1, h2⟩ u hu
      rcases List.mem_cons.1 hu with h' | h'
      · subst h'; cases b with
        | false => exact GoodUse.st
        | true => cases h1
      · exact (ih.1 h2) u h'
    · intro h
      have hb : b = false := by
        have := h _ (List.mem_cons_self _ _)
        cases this; rfl
      subst hb
      exact ⟨rfl, ih.2 fun u hu => h u (List.mem_cons_of_mem _ hu)⟩
  | case6 nc rest ih =>
    simp only [mayEscapeL, Bool.or_eq_false_iff]
    constructor
    · rintro ⟨h1, h2⟩ u hu
      rcases List.mem_cons.1 hu with h' | h'
      · subst h'
        cases nc with
        | true => exact GoodUse.call
        | false => simp at h1
      · exact (ih.1 h2) u h'
    · intro h
      have hb : nc = true := by
        have := h _ (List.mem_cons_self _ _)
        cases this; rfl
      subst hb
      exact ⟨rfl, ih.2 fun u hu => h u (List.mem_cons_of_mem _ hu)⟩
  | case7 rest ih =>
    simp only [mayEscapeL]
    constructor
    · intro h u hu
      rcases List.mem_cons.1 hu with h' | h'
      · subst h'; exact GoodUse.icmp
      · exact (ih.1 h) u h'
    · intro h; exact ih.2 fun u hu => h u (List.mem_cons_of_mem _ hu)
  | case8 rest =>
    simp only [mayEscapeL]
    constructor
    · intro h; cases h
    · intro h
      have := h _ (List.mem_cons_self _ _)
      cases this

/-- C10: `OptimizeAllocs` replaces a `runtime.alloc` call with a
zero-initialized stack alloca exactly when the requested size is a
compile-time constant of at most 256 bytes and the allocated pointer does
not escape (every transitive use is a getelementptr, a bitcast, a load, a
store of another value into the pointer, a call passing it as a `nocapture`
argument, or a pointer comparison); in that case the replacement is an
entry-block alloca whose contents are zero-initialized by a store; any
other allocation is left unchanged (`none`). -/
theorem c10_optimize_allocs (align k : Nat) (s : AllocSite) :
    ((optimizeAllocSite align k s).isSome ↔
      ∃ n, s.szConst = some n ∧ n ≤ maxStackAlloc ∧
        ∀ u ∈ escapeRoot s, GoodUse u) ∧
    (∀ l, optimizeAllocSite align k s = some l →
      ∃ t, l = [Inst.alloca k t ("stackalloc.alloca"),
                Inst.store (Val.zeroInit t) (Val.reg k),
                Inst.bitcast (k+1) (Val.reg k) s.castTy ("stackalloc")]) := by
  rcases s with ⟨sz, us, ct⟩
  cases sz with
  | none =>
    constructor
    · simp [optimizeAllocSite]
    · intro l hl; simp [optimizeAllocSite] at hl
  | some n =>
    by_cases hgt : n > maxStackAlloc
    · constructor
      · simp only [optimizeAllocSite, if_pos hgt]
        simp only [Option.isSome_none, Bool.false_eq_true, false_iff]
        rintro ⟨m, hm, hle, _⟩
        cases hm
        omega
      · intro l hl
        simp [optimizeAllocSite, if_pos hgt] at hl
    · by_cases hesc : mayEscapeL (escapeRoot ⟨some n, us, ct⟩) = true
      · constructor
        · simp only [optimizeAllocSite, if_neg hgt, if_pos hesc]
          simp only [Option.isSome_none, Bool.false_eq_true, false_iff]
          rintro ⟨m, hm, _, hgood⟩
          cases hm
          rw [← mayEscapeL_eq_false_iff] at hgood
          rw [hgood] at hesc
          cases hesc
        · intro l hl
          simp [optimizeAllocSite, if_neg hgt, if_pos hesc] at hl
      · rw [Bool.not_eq_true] at hesc
        constructor
        · simp only [optimizeAllocSite, if_neg hgt, hesc, Bool.false_eq_true,
            if_false, Option.isSome_some, true_iff]
          exact ⟨n, rfl, by omega, (mayEscapeL_eq_false_iff _).1 hesc⟩
        · intro l hl
          simp only [optimizeAllocSite, if_neg hgt, hesc, Bool.false_eq_true,
            if_false] at hl
          exact ⟨_, (Option.some.inj hl).symm⟩

/-- Witness for C10 at a concrete allocation site (size 8, align 4, one
getelementptr use followed by a load). -/
theorem c10_optimize_allocs_witness :
    ∃ t, ([Inst.alloca 0 (Ty.tarray 32 2) ("stackalloc.alloca"),
           Inst.store (Val.zeroInit (Ty.tarray 32 2)) (Val.reg 0),
           Inst.bitcast 1 (Val.reg 0) (Ty.tptr Ty.i8) ("stackalloc")] : List Inst) =
      [Inst.alloca 0 t ("stackalloc.alloca"),
       Inst.store (Val.zeroInit t) (Val.reg 0),
       Inst.bitcast 1 (Val.reg 0) (Ty.tptr Ty.i8) ("stackalloc")] :=
  (c10_optimize_allocs 4 0 ⟨some 8, [UseTree.gep [UseTree.loadU]], Ty.tptr Ty.i8⟩).2
    [Inst.alloca 0 (Ty.tarray 32 2) ("stackalloc.alloca"),
     Inst.store (Val.zeroInit (Ty.tarray 32 2)) (Val.reg 0),
     Inst.bitcast 1 (Val.reg 0) (Ty.tptr Ty.i8) ("stackalloc")]
    (by simp [optimizeAllocSite, mayEscapeL, escapeRoot, maxStackAlloc])

/-! ## Value substitution (ReplaceAllUsesWith) -/

/-- Replace register `r` with value `w` inside an operand. -/
def substVal (r : Nat) (w : Val) : Val → Val
  | .reg n => if n = r then w else .reg n
  | v => v

/-- Replace register `r` with value `w` in all operands of an instruction
(`ReplaceAllUsesWith`). -/
def substInst (r : Nat) (w : Val) : Inst → Inst
  | .call res rty c args => .call res rty c (args.map (substVal r w))
  | .ret v => .ret (v.map (substVal r w))
  | .alloca res t nm => .alloca res t nm
  | .bitcast res v t nm => .bitcast res (substVal r w v) t nm
  | .load res t p nm => .load res t (substVal r w p) nm
  | .store v p => .store (substVal r w v) (substVal r w p)
  | .br d => .br d
  | .switchI v d cs => .switchI (substVal r w v) d cs
  | .intcast res v t => .intcast res (substVal r w v) t
  | .miscI res t ops => .miscI res t (ops.map (substVal r w))

def substBB (r : Nat) (w : Val) (b : BB) : BB :=
  ⟨b.bname, b.insts.map (substInst r w)⟩

def substFn (r : Nat) (w : Val) (f : Fn) : Fn :=
  { f with blocks := f.blocks.map (substBB r w) }

/-- Apply a queue of pending `ReplaceAllUsesWith` substitutions. -/
def substAllFn (prs : List (Nat × Val)) (f : Fn) : Fn :=
  prs.foldl (fun g pr => substFn pr.1 pr.2 g) f

theorem isCallTo_substInst (nm : String) (r : Nat) (w : Val) (i : Inst) :
    isCallTo nm (substInst r w i) = isCallTo nm i := by
  cases i <;> simp [substInst, isCallTo]

theorem countIn_map_substInst (nm : String) (r : Nat) (w : Val) (l : List Inst) :
    countIn nm (l.map (substInst r w)) = countIn nm l := by
  induction l with
  | nil => rfl
  | cons i rest ih =>
    simp only [List.map_cons, countIn, List.filter_cons, isCallTo_substInst]
    by_cases h : isCallTo nm i = true <;> simp [h, countIn] at ih ⊢ <;> omega

theorem countFn_substFn (nm : String) (r : Nat) (w : Val) (f : Fn) :
    countFn nm (substFn r w f) = countFn nm f := by
  simp only [countFn, substFn, List.map_map]
  congr 1
  apply List.map_congr_left
  intro b _
  simp [Function.comp, substBB, countIn_map_substInst]

theorem countFn_substAllFn (nm : String) (prs : List (Nat × Val)) (f : Fn) :
    countFn nm (substAllFn prs f) = countFn nm f := by
  induction prs generalizing f with
  | nil => rfl
  | cons p rest ih => simp [substAllFn] at ih ⊢; rw [ih, countFn_substFn]

/-! ## C2 — scheduler necessity and the AVR short-circuit -/

/-- Target configuration fields consulted by `markAsyncFunctions` when it
decides whether a scheduler is needed. -/
structure Target where
  goos : String
  goarch : String
  triple : String
deriving DecidableEq

/-- One use of `runtime.makeGoroutine`, as inspected by the scheduler
necessity check: whether operand 0 is a constant ptrtoint, and the function
it wraps. -/
structure SpawnUse where
  constPtrToInt : Bool
  fn : String
deriving DecidableEq

/-- The non-js, non-avr branch: scan `makeGoroutine` uses; panic when the
operand is not a constant ptrtoint; a scheduler is needed as soon as one
spawned function is async. -/
def spawnNeedsScheduler (asyncNames : List String) : List SpawnUse → Except String Bool
  | [] => .ok false
  | s :: rest =>
    if !s.constPtrToInt then
      .error ("expected const ptrtoint operand of runtime.makeGoroutine")
    else if asyncNames.contains s.fn then .ok true
    else spawnNeedsScheduler asyncNames rest

/-- The scheduler-necessity decision of `markAsyncFunctions` (lines
305-345): JavaScript/wasm always needs a scheduler; AVR never does; any
other target needs one iff some goroutine spawn starts an async function. -/
def needsSchedulerDecision (t : Target) (spawns : List SpawnUse)
    (asyncNames : List String) : Except String Bool :=
  if t.goos = "js" && t.triple.startsWith ("wasm") then .ok true
  else if t.goarch = "avr" then .ok false
  else spawnNeedsScheduler asyncNames spawns

/-- The AVR short-circuit applied to one instruction list: every
`getCoroutine` call is removed and its result replaced by an undefined
value, every `yield` call is erased, and every `time.Sleep` call is
replaced by a call to the platform routine `avrSleep` on the same duration
operand.  Returns the new list and the pending undef substitutions. -/
def avrLowerInsts : List Inst → List Inst × List (Nat × Val)
  | [] => ([], [])
  | i :: rest =>
    let p := avrLowerInsts rest
    match i with
    | .call res rty c args =>
      if c = getCoroutineName then
        (p.1, (match res with
               | some r => (r, Val.undef rty) :: p.2
               | none => p.2))
      else if c = yieldName then (p.1, p.2)
      else if c = timeSleepName then
        (Inst.call none Ty.void avrSleepName [args.headD (Val.undef Ty.i8ptr)] :: p.1, p.2)
      else (Inst.call res rty c args :: p.1, p.2)
    | _ => (i :: p.1, p.2)

/-- The AVR short-circuit applied to a whole function. -/
def avrLowerFn (f : Fn) : Fn :=
  let scanned := f.blocks.map (fun b => (b.bname, avrLowerInsts b.insts))
  substAllFn (scanned.flatMap (fun pr => pr.2.2))
    { f with blocks := scanned.map (fun pr => ⟨pr.1, pr.2.1⟩) }

/-! ## C9 — goroutine-spawn lowering -/

/-- One use of a value during spawn-pattern matching. -/
inductive UseL where
  | inttoptr
  | callI (args : List Val)
  | otherUse
deriving DecidableEq

/-- One `runtime.makeGoroutine` call site: the function wrapped by the
constant ptrtoint operand, the uses of the `makeGoroutine` result, the uses
of the downstream `inttoptr`, and the return type of the indirect call. -/
structure GoSite where
  origFunc : String
  mgUses : List UseL
  ipUses : List UseL
  rty : Ty
deriving DecidableEq

/-- Replace the last element of a list (the trailing parent-handle
argument, operand `OperandsCount()-2` of a call). -/
def setLastArg (l : List Val) (v : Val) : List Val :=
  match l with
  | [] => []
  | [_] => [v]
  | x :: rest => x :: setLastArg rest v

/-- `lowerMakeGoroutineCalls` for one spawn site: matches the exact
`makeGoroutine` / `inttoptr` / indirect-call shape and rewrites it to a
direct call whose trailing parent-handle argument is NULL when the spawned
function does not require a parent, and a fresh `getFakeCoroutine()` call
otherwise.  `k` is the fresh register for that call. -/
def lowerGoroutineSite (pnr : List String) (k : Nat) (s : GoSite) :
    Except String (List Inst) :=
  match s.mgUses with
  | [UseL.inttoptr] =>
    match s.ipUses with
    | [UseL.callI args] =>
      if pnr.contains s.origFunc then
        .ok [Inst.call none s.rty s.origFunc (setLastArg args (Val.nullv Ty.i8ptr))]
      else
        .ok [Inst.call (some k) Ty.i8ptr getFakeCoroutineName [],
             Inst.call none s.rty s.origFunc (setLastArg args (Val.reg k))]
    | _ => .error ("expected exactly 1 call use of runtime.makeGoroutine bitcast")
  | _ => .error ("expected exactly 1 inttoptr use of runtime.makeGoroutine")

/-- Whether an operand value occurs in an instruction. -/
def usesValB (v : Val) (i : Inst) : Bool :=
  match i with
  | .call _ _ _ args => args.contains v
  | .ret w => w = some v
  | .alloca _ _ _ => false
  | .bitcast _ w _ _ => w = v
  | .load _ _ p _ => p = v
  | .store w p => w = v || p = v
  | .br _ => false
  | .switchI w _ _ => w = v
  | .intcast _ w _ => w = v
  | .miscI _ _ ops => ops.contains v

/-- Whether every use of the trailing `parentHandle` parameter inside `f`
is a call to `runtime.activateTask` (lines 848-856). -/
def paramOnlyActivate (f : Fn) : Bool :=
  f.blocks.all fun b => b.insts.all fun i =>
    !(usesValB (Val.param ("parentHandle")) i) || isCallTo activateTaskName i

/-- `parentNotRequired` (lines 835-863): the async functions, other than
`yield`, whose `parentHandle` parameter is used only as the argument of
`activateTask`; panics when an async function does not end in a
`parentHandle` parameter. -/
def computePNR : List Fn → Except String (List String)
  | [] => .ok []
  | f :: rest =>
    if f.fname = yieldName then computePNR rest
    else if ((f.params.getLast?).map Prod.fst ≠ some ("parentHandle")) then
      .error ("trying to make exported function async: " ++ f.fname)
    else
      match computePNR rest with
      | .error e => .error e
      | .ok tl => .ok (if paramOnlyActivate f then f.fname :: tl else tl)

/-- The map handed to `lowerMakeGoroutineCalls`: the computed
`parentNotRequired` set (or the empty set on the no-scheduler path),
always extended with `runtime.fakeCoroutine` (lines 905-908). -/
def pnrWithFake (pnr : Option (List String)) : List String :=
  "runtime.fakeCoroutine" :: pnr.getD []

/-- The rewrite of the single `runtime.callMain` call in `lowerCoroutines`
(lines 181-195): a direct call to the program's main with a fake-coroutine
parent, followed by a `runtime.scheduler()` call only when a scheduler is
needed. -/
def lowerMainCall (needsScheduler : Bool) (k : Nat) : List Inst :=
  [Inst.call (some k) Ty.i8ptr getFakeCoroutineName [],
   Inst.call none Ty.void ("main.main") [Val.undef Ty.i8ptr, Val.reg k]] ++
  (if needsScheduler then [Inst.call none Ty.void ("runtime.scheduler") []] else [])

theorem countIn_nil (nm : String) : countIn nm [] = 0 := rfl

theorem countIn_cons (nm : String) (i : Inst) (l : List Inst) :
    countIn nm (i :: l) = (if isCallTo nm i = true then 1 else 0) + countIn nm l := by
  simp only [countIn, List.filter_cons]
  split <;> simp +arith

theorem countIn_append (nm : String) (l1 l2 : List Inst) :
    countIn nm (l1 ++ l2) = countIn nm l1 + countIn nm l2 := by
  simp [countIn, List.filter_append]

theorem avrLowerInsts_counts (l : List Inst) :
    countIn getCoroutineName (avrLowerInsts l).1 = 0 ∧
    countIn yieldName (avrLowerInsts l).1 = 0 ∧
    countIn timeSleepName (avrLowerInsts l).1 = 0 ∧
    countIn avrSleepName (avrLowerInsts l).1
      = countIn avrSleepName l + countIn timeSleepName l := by
  induction l with
  | nil => simp [avrLowerInsts, countIn]
  | cons i rest ih =>
    obtain ⟨h1, h2, h3, h4⟩ := ih
    simp only [getCoroutineName, yieldName, timeSleepName, avrSleepName] at h1 h2 h3 h4 ⊢
    cases i with
    | call res rty c args =>
      by_cases hc1 : c = "runtime.getCoroutine"
      · subst hc1
        cases res <;>
          simp [avrLowerInsts, getCoroutineName, yieldName, timeSleepName,
            avrSleepName, countIn_cons, isCallTo, h1, h2, h3, h4]
      · by_cases hc2 : c = "runtime.yield"
        · subst hc2
          simp [avrLowerInsts, getCoroutineName, yieldName, timeSleepName,
            avrSleepName, countIn_cons, isCallTo, hc1, h1, h2, h3, h4]
        · by_cases hc3 : c = "time.Sleep"
          · subst hc3
            simp only [avrLowerInsts, getCoroutineName, yieldName, timeSleepName,
              avrSleepName, if_neg hc1, if_neg hc2, if_pos rfl]
            simp [countIn_cons, isCallTo, h1, h2, h3, h4]
            omega
          · simp only [avrLowerInsts, getCoroutineName, yieldName, timeSleepName,
              avrSleepName, if_neg hc1, if_neg hc2, if_neg hc3, countIn_cons, isCallTo]
            simp only [h1, h2, h3, h4]
            refine ⟨by simp [hc1], by simp [hc2], by simp [hc3], by simp [hc3]; omega⟩
    | ret v => simpa [avrLowerInsts, countIn_cons, isCallTo] using ⟨h1, h2, h3, h4⟩
    | alloca res t nm => simpa [avrLowerInsts, countIn_cons, isCallTo] using ⟨h1, h2, h3, h4⟩
    | bitcast res v t nm => simpa [avrLowerInsts, countIn_cons, isCallTo] using ⟨h1, h2, h3, h4⟩
    | load res t p nm => simpa [avrLowerInsts, countIn_cons, isCallTo] using ⟨h1, h2, h3, h4⟩
    | store v p => simpa [avrLowerInsts, countIn_cons, isCallTo] using ⟨h1, h2, h3, h4⟩
    | br d => simpa [avrLowerInsts, countIn_cons, isCallTo] using ⟨h1, h2, h3, h4⟩
    | switchI v d cs => simpa [avrLowerInsts, countIn_cons, isCallTo] using ⟨h1, h2, h3, h4⟩
    | intcast res v t => simpa [avrLowerInsts, countIn_cons, isCallTo] using ⟨h1, h2, h3, h4⟩
    | miscI res t ops => simpa [avrLowerInsts, countIn_cons, isCallTo] using ⟨h1, h2, h3, h4⟩

theorem countFn_mk (nm : String) (f : Fn) :
    countFn nm f = (f.blocks.map (fun b => countIn nm b.insts)).sum := rfl

theorem avrLowerFn_counts (f : Fn) :
    countFn getCoroutineName (avrLowerFn f) = 0 ∧
    countFn yieldName (avrLowerFn f) = 0 ∧
    countFn timeSleepName (avrLowerFn f) = 0 ∧
    countFn avrSleepName (avrLowerFn f)
      = countFn avrSleepName f + countFn timeSleepName f := by
  unfold avrLowerFn
  rw [countFn_substAllFn, countFn_substAllFn, countFn_substAllFn, countFn_substAllFn]
  simp only [countFn, List.map_map]
  refine ⟨?_, ?_, ?_, ?_⟩
  · rw [List.sum_eq_zero]
    intro x hx
    simp only [List.mem_map, Function.comp] at hx
    obtain ⟨b, _, hb⟩ := hx
    rw [← hb]
    exact (avrLowerInsts_counts b.insts).1
  · rw [List.sum_eq_zero]
    intro x hx
    simp only [List.mem_map, Function.comp] at hx
    obtain ⟨b, _, hb⟩ := hx
    rw [← hb]
    exact (avrLowerInsts_counts b.insts).2.1
  · rw [List.sum_eq_zero]
    intro x hx
    simp only [List.mem_map, Function.comp] at hx
    obtain ⟨b, _, hb⟩ := hx
    rw [← hb]
    exact (avrLowerInsts_counts b.insts).2.2.1
  · induction f.blocks with
    | nil => rfl
    | cons b rest ih =>
      simp only [List.map_cons, List.sum_cons, Function.comp] at ih ⊢
      rw [(avrLowerInsts_counts b.insts).2.2.2]
      omega

theorem spawnNeedsScheduler_ok (a : List String) (sp : List SpawnUse) (b : Bool) :
    spawnNeedsScheduler a sp = .ok b → (b = true ↔ ∃ s ∈ sp, s.fn ∈ a) := by
  induction sp with
  | nil =>
    intro h
    simp only [spawnNeedsScheduler] at h
    cases h
    simp
  | cons s rest ih =>
    intro h
    simp only [spawnNeedsScheduler] at h
    by_cases hc : s.constPtrToInt = true
    · rw [if_neg (by simp [hc])] at h
      by_cases hm : a.contains s.fn = true
      · rw [if_pos hm] at h
        cases h
        simp only [true_iff]
        exact ⟨s, List.mem_cons_self _ _, List.elem_iff.mp hm⟩
      · rw [if_neg hm] at h
        rw [ih h]
        constructor
        · rintro ⟨x, hx, hxa⟩
          exact ⟨x, List.mem_cons_of_mem _ hx, hxa⟩
        · rintro ⟨x, hx, hxa⟩
          rcases List.mem_cons.1 hx with h' | h'
          · subst h'
            exact absurd (List.elem_iff.mpr hxa) (by simpa using hm)
          · exact ⟨x, h', hxa⟩
    · rw [if_pos (by simp [hc])] at h
      cases h

/-- C2 (counterexample): the claim's iff fails on the scheduler-less AVR
target: the module spawns async `main.f`, yet the pass decides
`needsScheduler = false`. -/
theorem c2_needs_scheduler_counterexample :
    needsSchedulerDecision ⟨"linux", "avr", "avr"⟩ [⟨true, "main.f"⟩]
        ["runtime.yield", "main.f"] = .ok false ∧
    (∃ s ∈ ([⟨true, "main.f"⟩] : List SpawnUse),
        s.fn ∈ (["runtime.yield", "main.f"] : List String)) := by
  constructor
  · simp [needsSchedulerDecision]
  · exact ⟨⟨true, "main.f"⟩, by simp, by simp⟩

/-- C2 (amended): the pass decides `needsScheduler = true` iff the target
is js/wasm, or the target is not the scheduler-less AVR target and some
`makeGoroutine` call spawns a function in `A`; on the AVR target the pass
always decides `false` and short-circuits: every `getCoroutine` use is
replaced by an undefined value, every `yield` call is erased, and every
`time.Sleep` call is replaced by a direct `avrSleep` call. -/
theorem c2_needs_scheduler_amended (t : Target) (spawns : List SpawnUse)
    (a : List String) (b : Bool) :
    needsSchedulerDecision t spawns a = .ok b →
      ((b = true ↔
        ((t.goos = "js" ∧ t.triple.startsWith ("wasm") = true) ∨
         (¬(t.goos = "js" ∧ t.triple.startsWith ("wasm") = true) ∧ t.goarch ≠ "avr" ∧
           ∃ s ∈ spawns, s.fn ∈ a))) ∧
       (t.goarch = "avr" → ¬(t.goos = "js" ∧ t.triple.startsWith ("wasm") = true) →
         b = false) ∧
       (∀ f : Fn, countFn getCoroutineName (avrLowerFn f) = 0 ∧
         countFn yieldName (avrLowerFn f) = 0 ∧
         countFn timeSleepName (avrLowerFn f) = 0 ∧
         countFn avrSleepName (avrLowerFn f)
           = countFn avrSleepName f + countFn timeSleepName f)) := by
  intro h
  unfold needsSchedulerDecision at h
  by_cases hjs : (t.goos = "js" && t.triple.startsWith ("wasm")) = true
  · rw [if_pos hjs] at h
    cases h
    simp only [Bool.and_eq_true, decide_eq_true_eq] at hjs
    refine ⟨by simp [hjs], ?_, fun f => avrLowerFn_counts f⟩
    intro _ hcon
    exact absurd hjs hcon
  · rw [if_neg hjs] at h
    have hjs' : ¬(t.goos = "js" ∧ t.triple.startsWith ("wasm") = true) := by
      intro hcon
      exact hjs (by simp [hcon.1, hcon.2])
    by_cases havr : t.goarch = "avr"
    · rw [if_pos havr] at h
      cases h
      refine ⟨?_, fun _ _ => rfl, fun f => avrLowerFn_counts f⟩
      simp only [Bool.false_eq_true, false_iff]
      rintro (hcon | ⟨_, hcon, _⟩)
      · exact hjs' hcon
      · exact hcon havr
    · rw [if_neg havr] at h
      have := spawnNeedsScheduler_ok a spawns b h
      refine ⟨?_, fun hcon _ => absurd hcon havr, fun f => avrLowerFn_counts f⟩
      rw [this]
      constructor
      · intro hex
        exact Or.inr ⟨hjs', havr, hex⟩
      · rintro (hcon | ⟨_, _, hex⟩)
        · exact absurd hcon hjs'
        · exact hex

/-- Witness for C2's amended theorem on a concrete Linux/x86 module with an
async spawn. -/
theorem c2_needs_scheduler_amended_witness :
    ((true = true ↔
      ((("linux" : String) = "js" ∧ ("x86_64" : String).startsWith ("wasm") = true) ∨
       (¬(("linux" : String) = "js" ∧ ("x86_64" : String).startsWith ("wasm") = true) ∧
         ("x86" : String) ≠ "avr" ∧
         ∃ s ∈ ([⟨true, "main.f"⟩] : List SpawnUse),
           s.fn ∈ (["runtime.yield", "main.f"] : List String)))) ∧
     ((("x86" : String) = "avr" →
       ¬(("linux" : String) = "js" ∧ ("x86_64" : String).startsWith ("wasm") = true) →
       true = false)) ∧
     (∀ f : Fn, countFn getCoroutineName (avrLowerFn f) = 0 ∧
       countFn yieldName (avrLowerFn f) = 0 ∧
       countFn timeSleepName (avrLowerFn f) = 0 ∧
       countFn avrSleepName (avrLowerFn f)
         = countFn avrSleepName f + countFn timeSleepName f)) :=
  c2_needs_scheduler_amended ⟨"linux", "x86", "x86_64"⟩ [⟨true, "main.f"⟩]
    ["runtime.yield", "main.f"] true (by simp [needsSchedulerDecision, spawnNeedsScheduler])

/-- C9 (counterexample): on the no-scheduler path (`parentNotRequired` is
nil, so only `runtime.fakeCoroutine` is exempt), a spawned non-async
function `main.f` receives a `getFakeCoroutine()` parent handle, not NULL. -/
theorem c9_spawn_null_counterexample :
    lowerGoroutineSite (pnrWithFake none) 7
        ⟨"main.f", [UseL.inttoptr],
          [UseL.callI [Val.undef Ty.i8ptr, Val.undef Ty.i8ptr]], Ty.void⟩ =
      .ok [Inst.call (some 7) Ty.i8ptr getFakeCoroutineName [],
           Inst.call none Ty.void ("main.f") [Val.undef Ty.i8ptr, Val.reg 7]] ∧
    Val.reg 7 ≠ Val.nullv Ty.i8ptr := by
  constructor
  · simp [lowerGoroutineSite, pnrWithFake, setLastArg]
  · simp

/-- C9 (amended): a lowered spawn is a direct call to the spawned function
whose trailing parent-handle argument is NULL exactly when the spawned
function is in `parentNotRequired`, and a `getFakeCoroutine()` call
otherwise; `parentNotRequired` only ever contains async functions, so a
non-async spawned function always receives `getFakeCoroutine()`; when no
scheduler is needed, no `runtime.scheduler` call is emitted. -/
theorem c9_spawn_lowering_amended (pnr : List String) (k : Nat) (s : GoSite)
    (l : List Inst) :
    (lowerGoroutineSite pnr k s = .ok l →
      ∃ args, s.mgUses = [UseL.inttoptr] ∧ s.ipUses = [UseL.callI args] ∧
        ((s.origFunc ∈ pnr →
           l = [Inst.call none s.rty s.origFunc (setLastArg args (Val.nullv Ty.i8ptr))]) ∧
         (s.origFunc ∉ pnr →
           l = [Inst.call (some k) Ty.i8ptr getFakeCoroutineName [],
                Inst.call none s.rty s.origFunc (setLastArg args (Val.reg k))]))) ∧
    countIn ("runtime.scheduler") (lowerMainCall false k) = 0 ∧
    (∀ asyncL pl, computePNR asyncL = .ok pl → ∀ x ∈ pl, x ∈ asyncL.map Fn.fname) := by
  refine ⟨?_, by simp [lowerMainCall, countIn, isCallTo, getFakeCoroutineName], ?_⟩
  · intro h
    obtain ⟨fn, mg, ip, rt⟩ := s
    match mg with
    | [] => simp [lowerGoroutineSite] at h
    | UseL.callI a :: tl => simp [lowerGoroutineSite] at h
    | UseL.otherUse :: tl => simp [lowerGoroutineSite] at h
    | UseL.inttoptr :: u :: tl => simp [lowerGoroutineSite] at h
    | [UseL.inttoptr] =>
      match ip with
      | [] => simp [lowerGoroutineSite] at h
      | UseL.inttoptr :: tl => simp [lowerGoroutineSite] at h
      | UseL.otherUse :: tl => simp [lowerGoroutineSite] at h
      | UseL.callI a :: u :: tl => simp [lowerGoroutineSite] at h
      | [UseL.callI args] =>
        refine ⟨args, rfl, rfl, ?_, ?_⟩
        · intro hm
          have hc : pnr.contains fn = true := List.elem_iff.mpr hm
          simp only [lowerGoroutineSite, hc, if_true] at h
          exact (Except.ok.inj h).symm
        · intro hm
          have hc : ¬ pnr.contains fn = true := fun hcon => hm (List.elem_iff.mp hcon)
          simp only [lowerGoroutineSite, Bool.not_eq_true] at h
          rw [if_neg hc] at h
          exact (Except.ok.inj h).symm
  · intro asyncL
    induction asyncL with
    | nil =>
      intro pl h x hx
      simp only [computePNR] at h
      cases h
      cases hx
    | cons f rest ih =>
      intro pl h x hx
      simp only [computePNR] at h
      by_cases hy : f.fname = yieldName
      · rw [if_pos hy] at h
        exact List.mem_cons_of_mem _ (ih pl h x hx)
      · rw [if_neg hy] at h
        split at h
        · cases h
        · cases hrest : computePNR rest with
          | error e => rw [hrest] at h; cases h
          | ok tl =>
            rw [hrest] at h
            cases h
            by_cases hp : paramOnlyActivate f = true
            · rw [if_pos hp] at hx
              rcases List.mem_cons.1 hx with h' | h'
              · subst h'; exact List.mem_cons_self _ _
              · exact List.mem_cons_of_mem _ (ih tl hrest x h')
            · rw [if_neg hp] at hx
              exact List.mem_cons_of_mem _ (ih tl hrest x hx)

/-- Witness for C9's amended theorem at a concrete spawn of an async
function that is in `parentNotRequired`. -/
theorem c9_spawn_lowering_amended_witness :
    (∃ args, ([UseL.inttoptr] : List UseL) = [UseL.inttoptr] ∧
      ([UseL.callI [Val.undef Ty.i8ptr, Val.undef Ty.i8ptr]] : List UseL)
        = [UseL.callI args] ∧
      ((("main.g" : String) ∈ (["main.g"] : List String) →
         ([Inst.call none Ty.void ("main.g")
            [Val.undef Ty.i8ptr, Val.nullv Ty.i8ptr]] : List Inst)
           = [Inst.call none Ty.void ("main.g")
               (setLastArg args (Val.nullv Ty.i8ptr))]) ∧
       (("main.g" : String) ∉ (["main.g"] : List String) →
         ([Inst.call none Ty.void ("main.g")
            [Val.undef Ty.i8ptr, Val.nullv Ty.i8ptr]] : List Inst)
           = [Inst.call (some 3) Ty.i8ptr getFakeCoroutineName [],
              Inst.call none Ty.void ("main.g") (setLastArg args (Val.reg 3))]))) :=
  ((c9_spawn_lowering_amended ["main.g"] 3
      ⟨"main.g", [UseL.inttoptr],
        [UseL.callI [Val.undef Ty.i8ptr, Val.undef Ty.i8ptr]], Ty.void⟩
      [Inst.call none Ty.void ("main.g")
        [Val.undef Ty.i8ptr, Val.nullv Ty.i8ptr]]).1
    (by simp [lowerGoroutineSite, setLastArg]))

/-! ## C1 — the async-propagation worklist (lines 234-303)

The worklist inspects, for each function popped, the def-use list of that
function.  We embed exactly the use shapes the loop distinguishes. -/

/-- One use of an async function `f`, as enumerated by `getUses(f)`:
* `constPtrToInt users`: a constant ptrtoint wrapping `f`; `users` records,
  for each use of that constant, whether that use is a call instruction and
  the name of its callee;
* `constBitCast n`: a constant bitcast of `f` with `n` remaining uses;
* `callUse parent fAmongArgs`: a call instruction inside function `parent`,
  with `fAmongArgs` recording whether `f` also occurs among operands
  `0 .. OperandsCount()-2` (as an argument rather than as the callee);
* `nonCall`: any other non-call use (e.g. a store to a global). -/
inductive FnUse where
  | constPtrToInt (users : List (Bool × String))
  | constBitCast (numUses : Nat)
  | callUse (parent : String) (fAmongArgs : Bool)
  | nonCall
deriving DecidableEq

/-- A module, for the purposes of the worklist: each function name mapped
to the uses of that function. -/
abbrev UseMap := List (String × List FnUse)

def usesOf (m : UseMap) (f : String) : List FnUse :=
  (m.lookup f).getD []

/-- Processing of the uses of a popped function `fname` (lines 269-302):
produces the parents to push, in use order, or the error the pass reports. -/
def parentsOfE (fname : String) : List FnUse → Except String (List String)
  | [] => .ok []
  | u :: rest =>
    match u with
    | .constPtrToInt users =>
      if users.all (fun pr => pr.1 && pr.2 = makeGoroutineName) then
        parentsOfE fname rest
      else
        .error ("async function " ++ fname ++
          " incorrectly used in ptrtoint, expected runtime.makeGoroutine")
    | .constBitCast n =>
      if n = 0 then parentsOfE fname rest
      else .error ("async function " ++ fname ++ " used as function pointer")
    | .nonCall => .error ("async function " ++ fname ++ " used as function pointer")
    | .callUse parent fArg =>
      if fArg then
        .error ("async function " ++ fname ++ " used as function pointer in " ++ parent)
      else
        match parentsOfE fname rest with
        | .error e => .error e
        | .ok ps => .ok (parent :: ps)

/-- The worklist loop (lines 254-303).  The source uses the slice as a
stack (pop from the end, append pushes at the end); here the head of `wl`
is the top of the stack and pushed parents are reversed, which yields the
same pop order.  `fuel` bounds the number of iterations; `.ok none` means
the fuel ran out (`markAsyncFuncs` supplies enough fuel, see
`c1_async_worklist`). -/
def markAsyncLoop (m : UseMap) : Nat → List String → List String →
    Except String (Option (List String))
  | _, [], acc => .ok (some acc)
  | 0, _ :: _, _ => .ok none
  | fuel+1, x :: rest, acc =>
    if acc.contains x then markAsyncLoop m fuel rest acc
    else if x = "resume" then markAsyncLoop m fuel rest acc
    else
      match parentsOfE x (usesOf m x) with
      | .error e => .error e
      | .ok ps => markAsyncLoop m fuel (ps.reverse ++ rest) (acc ++ [x])

def totalUses (m : UseMap) : Nat := (m.map (fun p => p.2.length)).sum

/-- The async-propagation pass, started from `runtime.yield` (the source
returns early when the module has no `runtime.yield` function; this is the
branch where it exists). -/
def markAsyncFuncs (m : UseMap) : Except String (Option (List String)) :=
  markAsyncLoop m (2 + totalUses m) ["runtime.yield"] []

def keysOf (m : UseMap) : List String := m.map Prod.fst

/-- Modelled from the spec's words: `A` is the smallest set of functions
containing `yield` and every function that contains a call to a member of
`A`, except that a function named `resume` is never added; spawn edges
(a ptrtoint constant consumed by `makeGoroutine`) are not call uses and so
contribute no edge. -/
inductive InA (m : UseMap) : String → Prop
  | yield : InA m "runtime.yield"
  | step (f g : String) (b : Bool) : InA m f →
      FnUse.callUse g b ∈ usesOf m f → g ≠ "resume" → InA m g

theorem InA_ne_resume (m : UseMap) (x : String) (h : InA m x) : x ≠ "resume" := by
  induction h with
  | yield => decide
  | step f g b _ _ hg _ => exact hg

theorem parentsOfE_length (fname : String) (us : List FnUse) (ps : List String)
    (h : parentsOfE fname us = .ok ps) : ps.length ≤ us.length := by
  induction us generalizing ps with
  | nil => simp only [parentsOfE] at h; cases h; simp
  | cons u rest ih =>
    cases u with
    | constPtrToInt users =>
      simp only [parentsOfE] at h
      split at h
      · exact Nat.le_succ_of_le (ih ps h)
      · cases h
    | constBitCast n =>
      simp only [parentsOfE] at h
      split at h
      · exact Nat.le_succ_of_le (ih ps h)
      · cases h
    | callUse parent fArg =>
      simp only [parentsOfE] at h
      split at h
      · cases h
      · cases hrec : parentsOfE fname rest with
        | error e => rw [hrec] at h; cases h
        | ok qs =>
          rw [hrec] at h
          cases h
          simpa using ih qs hrec
    | nonCall => simp only [parentsOfE] at h; cases h

theorem parentsOfE_mem (fname : String) (us : List FnUse) (ps : List String)
    (g : String) (b : Bool) (h : parentsOfE fname us = .ok ps)
    (hmem : FnUse.callUse g b ∈ us) : g ∈ ps := by
  induction us generalizing ps with
  | nil => cases hmem
  | cons u rest ih =>
    cases u with
    | constPtrToInt users =>
      simp only [parentsOfE] at h
      split at h
      · rcases List.mem_cons.1 hmem with h' | h'
        · cases h'
        · exact ih ps h h'
      · cases h
    | constBitCast n =>
      simp only [parentsOfE] at h
      split at h
      · rcases List.mem_cons.1 hmem with h' | h'
        · cases h'
        · exact ih ps h h'
      · cases h
    | callUse parent fArg =>
      simp only [parentsOfE] at h
      split at h
      · cases h
      · cases hrec : parentsOfE fname rest with
        | error e => rw [hrec] at h; cases h
        | ok qs =>
          rw [hrec] at h
          cases h
          rcases List.mem_cons.1 hmem with h' | h'
          · cases h'
            exact List.mem_cons_self _ _
          · exact List.mem_cons_of_mem _ (ih qs hrec h')
    | nonCall => simp only [parentsOfE] at h; cases h

theorem parentsOfE_sub (fname : String) (us : List FnUse) (ps : List String)
    (g : String) (h : parentsOfE fname us = .ok ps) (hg : g ∈ ps) :
    ∃ b, FnUse.callUse g b ∈ us := by
  induction us generalizing ps with
  | nil => simp only [parentsOfE] at h; cases h; cases hg
  | cons u rest ih =>
    cases u with
    | constPtrToInt users =>
      simp only [parentsOfE] at h
      split at h
      · obtain ⟨b, hb⟩ := ih ps h hg
        exact ⟨b, List.mem_cons_of_mem _ hb⟩
      · cases h
    | constBitCast n =>
      simp only [parentsOfE] at h
      split at h
      · obtain ⟨b, hb⟩ := ih ps h hg
        exact ⟨b, List.mem_cons_of_mem _ hb⟩
      · cases h
    | callUse parent fArg =>
      simp only [parentsOfE] at h
      split at h
      · cases h
      · cases hrec : parentsOfE fname rest with
        | error e => rw [hrec] at h; cases h
        | ok qs =>
          rw [hrec] at h
          cases h
          rcases List.mem_cons.1 hg with h' | h'
          · subst h'
            exact ⟨fArg, List.mem_cons_self _ _⟩
          · obtain ⟨b, hb⟩ := ih qs hrec h'
            exact ⟨b, List.mem_cons_of_mem _ hb⟩
    | nonCall => simp only [parentsOfE] at h; cases h

/-- If `x` has no entry in the module, its use list is empty, so no parents
are produced. -/
theorem parentsOfE_nil (fname : String) : parentsOfE fname [] = .ok [] := rfl

/-- Potential used to show the fuel bound suffices: remaining worklist plus
the use counts of all not-yet-visited module functions. -/
def phiM (m : UseMap) (acc wl : List String) : Nat :=
  wl.length +
    (((keysOf m).filter (fun y => decide (y ∉ acc))).map
      (fun y => (usesOf m y).length)).sum

theorem sum_filter_split (l : List String) (g : String → Nat) (acc : List String)
    (x : String) (hnd : l.Nodup) (hx : x ∈ l) (hxacc : x ∉ acc) :
    ((l.filter (fun y => decide (y ∉ acc ++ [x]))).map g).sum + g x
      = ((l.filter (fun y => decide (y ∉ acc))).map g).sum := by
  induction l with
  | nil => cases hx
  | cons y rest ih =>
    rcases List.mem_cons.1 hx with h' | h'
    · subst h'
      have hrest : x ∉ rest := (List.nodup_cons.1 hnd).1
      have e1 : rest.filter (fun y => decide (y ∉ acc ++ [x]))
          = rest.filter (fun y => decide (y ∉ acc)) := by
        apply List.filter_congr
        intro z hz
        have hzx : z ≠ x := fun hcon => hrest (hcon ▸ hz)
        simp [List.mem_append, hzx]
      rw [List.filter_cons_of_neg (by simp), List.filter_cons_of_pos (by simpa using hxacc), e1]
      simp [Nat.add_comm]
    · have hyx : y ≠ x := by
        intro hcon
        subst hcon
        exact (List.nodup_cons.1 hnd).1 h'
      have hiff : (y ∉ acc ++ [x]) ↔ (y ∉ acc) := by
        simp [List.mem_append, hyx]
      have ihr := ih (List.nodup_cons.1 hnd).2 h'
      by_cases hy : y ∉ acc
      · rw [List.filter_cons_of_pos (by simpa using hiff.mpr hy),
            List.filter_cons_of_pos (by simpa using hy)]
        simp only [List.map_cons, List.sum_cons]
        omega
      · rw [List.filter_cons_of_neg (by simpa using fun hcon => hy (hiff.mp hcon)),
            List.filter_cons_of_neg (by simpa using hy)]
        exact ihr

theorem keys_not_mem_usesOf (m : UseMap) (x : String) (hx : x ∉ keysOf m) :
    usesOf m x = [] := by
  induction m with
  | nil => rfl
  | cons p rest ih =>
    obtain ⟨k, v⟩ := p
    have hx1 : x ≠ k := fun hcon => hx (by simp [keysOf, hcon])
    have hx2 : x ∉ keysOf rest := fun hcon => hx (by
      simp only [keysOf, List.map_cons, List.mem_cons]
      right
      exact hcon)
    have hbeq : (x == k) = false := beq_eq_false_iff_ne.mpr hx1
    simp only [usesOf, List.lookup, hbeq] at ih ⊢
    exact ih hx2

theorem markAsyncLoop_no_fuel_out (m : UseMap) (hnd : (keysOf m).Nodup) :
    ∀ fuel wl acc, phiM m acc wl < fuel →
      markAsyncLoop m fuel wl acc ≠ .ok none := by
  intro fuel
  induction fuel with
  | zero => intro wl acc h; omega
  | succ n ih =>
    intro wl acc hphi
    cases wl with
    | nil => simp [markAsyncLoop]
    | cons x rest =>
      simp only [markAsyncLoop]
      by_cases h1 : acc.contains x = true
      · rw [if_pos h1]
        apply ih
        simp only [phiM, List.length_cons] at hphi ⊢
        omega
      · rw [if_neg h1]
        by_cases h2 : x = "resume"
        · rw [if_pos h2]
          apply ih
          simp only [phiM, List.length_cons] at hphi ⊢
          omega
        · rw [if_neg h2]
          cases hps : parentsOfE x (usesOf m x) with
          | error e => simp
          | ok ps =>
            apply ih
            have hxacc : x ∉ acc := fun hcon => h1 (List.elem_iff.mpr hcon)
            by_cases hxk : x ∈ keysOf m
            · have hsplit := sum_filter_split (keysOf m)
                (fun y => (usesOf m y).length) acc x hnd hxk hxacc
              rw [show ((fun y => (usesOf m y).length) x) = (usesOf m x).length
                from rfl] at hsplit
              have hlen := parentsOfE_length x (usesOf m x) ps hps
              simp only [phiM, List.length_append, List.length_reverse,
                List.length_cons] at hphi ⊢
              omega
            · have huses : usesOf m x = [] := keys_not_mem_usesOf m x hxk
              rw [huses] at hps
              cases hps
              have e1 : (keysOf m).filter (fun y => decide (y ∉ acc ++ [x]))
                  = (keysOf m).filter (fun y => decide (y ∉ acc)) := by
                apply List.filter_congr
                intro z hz
                have hzx : z ≠ x := fun hcon => hxk (hcon ▸ hz)
                simp [List.mem_append, hzx]
              simp only [phiM, List.length_append, List.length_reverse,
                List.length_cons, List.length_nil, e1] at hphi ⊢
              omega

theorem markAsyncLoop_char (m : UseMap) :
    ∀ fuel wl acc L,
      (∀ x ∈ acc, InA m x) →
      (∀ x ∈ wl, x = "resume" ∨ InA m x) →
      acc.Nodup →
      ("runtime.yield" ∈ acc ∨ "runtime.yield" ∈ wl) →
      (∀ f ∈ acc, ∃ ps, parentsOfE f (usesOf m f) = .ok ps ∧
        ∀ g ∈ ps, g ≠ "resume" → (g ∈ acc ∨ g ∈ wl)) →
      markAsyncLoop m fuel wl acc = .ok (some L) →
      (L.Nodup ∧ (∀ x ∈ L, InA m x) ∧ "runtime.yield" ∈ L ∧
       ∀ f ∈ L, ∃ ps, parentsOfE f (usesOf m f) = .ok ps ∧
         ∀ g ∈ ps, g ≠ "resume" → g ∈ L) := by
  intro fuel
  induction fuel with
  | zero =>
    intro wl acc L hs hw hn hy hc hrun
    cases wl with
    | nil =>
      simp only [markAsyncLoop, Except.ok.injEq, Option.some.injEq] at hrun
      subst hrun
      refine ⟨hn, hs, ?_, ?_⟩
      · rcases hy with h | h
        · exact h
        · cases h
      · intro f hf
        obtain ⟨ps, hps, hg⟩ := hc f hf
        refine ⟨ps, hps, fun g hgp hgr => ?_⟩
        rcases hg g hgp hgr with h | h
        · exact h
        · cases h
    | cons x rest => simp [markAsyncLoop] at hrun
  | succ n ih =>
    intro wl acc L hs hw hn hy hc hrun
    cases wl with
    | nil =>
      simp only [markAsyncLoop, Except.ok.injEq, Option.some.injEq] at hrun
      subst hrun
      refine ⟨hn, hs, ?_, ?_⟩
      · rcases hy with h | h
        · exact h
        · cases h
      · intro f hf
        obtain ⟨ps, hps, hg⟩ := hc f hf
        refine ⟨ps, hps, fun g hgp hgr => ?_⟩
        rcases hg g hgp hgr with h | h
        · exact h
        · cases h
    | cons x rest =>
      simp only [markAsyncLoop] at hrun
      by_cases h1 : acc.contains x = true
      · rw [if_pos h1] at hrun
        have hxacc : x ∈ acc := List.elem_iff.mp h1
        refine ih rest acc L hs (fun z hz => hw z (List.mem_cons_of_mem _ hz)) hn ?_ ?_ hrun
        · rcases hy with h | h
          · exact Or.inl h
          · rcases List.mem_cons.1 h with h' | h'
            · exact Or.inl (h' ▸ hxacc)
            · exact Or.inr h'
        · intro f hf
          obtain ⟨ps, hps, hg⟩ := hc f hf
          refine ⟨ps, hps, fun g hgp hgr => ?_⟩
          rcases hg g hgp hgr with h | h
          · exact Or.inl h
          · rcases List.mem_cons.1 h with h' | h'
            · exact Or.inl (h' ▸ hxacc)
            · exact Or.inr h'
      · rw [if_neg h1] at hrun
        by_cases h2 : x = "resume"
        · rw [if_pos h2] at hrun
          subst h2
          refine ih rest acc L hs (fun z hz => hw z (List.mem_cons_of_mem _ hz)) hn ?_ ?_ hrun
          · rcases hy with h | h
            · exact Or.inl h
            · rcases List.mem_cons.1 h with h' | h'
              · exact absurd h' (by decide)
              · exact Or.inr h'
          · intro f hf
            obtain ⟨ps, hps, hg⟩ := hc f hf
            refine ⟨ps, hps, fun g hgp hgr => ?_⟩
            rcases hg g hgp hgr with h | h
            · exact Or.inl h
            · rcases List.mem_cons.1 h with h' | h'
              · exact absurd h' hgr
              · exact Or.inr h'
        · rw [if_neg h2] at hrun
          cases hps : parentsOfE x (usesOf m x) with
          | error e => rw [hps] at hrun; cases hrun
          | ok ps =>
            rw [hps] at hrun
            have hxacc : x ∉ acc := fun hcon => h1 (List.elem_iff.mpr hcon)
            have hxA : InA m x := by
              rcases hw x (List.mem_cons_self _ _) with h | h
              · exact absurd h h2
              · exact h
            refine ih (ps.reverse ++ rest) (acc ++ [x]) L ?_ ?_ ?_ ?_ ?_ hrun
            · intro z hz
              rcases List.mem_append.1 hz with h | h
              · exact hs z h
              · rcases List.mem_singleton.1 h with h'
                exact h' ▸ hxA
            · intro z hz
              rcases List.mem_append.1 hz with h | h
              · rw [List.mem_reverse] at h
                by_cases hzr : z = "resume"
                · exact Or.inl hzr
                · obtain ⟨b, hb⟩ := parentsOfE_sub x (usesOf m x) ps z hps h
                  exact Or.inr (InA.step x z b hxA hb hzr)
              · exact hw z (List.mem_cons_of_mem _ h)
            · rw [List.nodup_append]
              exact ⟨hn, List.nodup_singleton x, by
                intro z hz hz'
                rcases List.mem_singleton.1 hz' with h'
                exact hxacc (h' ▸ hz)⟩
            · rcases hy with h | h
              · exact Or.inl (List.mem_append.2 (Or.inl h))
              · rcases List.mem_cons.1 h with h' | h'
                · exact Or.inl (List.mem_append.2 (Or.inr (by simp [h'])))
                · exact Or.inr (List.mem_append.2 (Or.inr h'))
            · intro f hf
              rcases List.mem_append.1 hf with h | h
              · obtain ⟨qs, hqs, hg⟩ := hc f h
                refine ⟨qs, hqs, fun g hgp hgr => ?_⟩
                rcases hg g hgp hgr with h' | h'
                · exact Or.inl (List.mem_append.2 (Or.inl h'))
                · rcases List.mem_cons.1 h' with h'' | h''
                  · exact Or.inl (List.mem_append.2 (Or.inr (by simp [h''])))
                  · exact Or.inr (List.mem_append.2 (Or.inr h''))
              · rcases List.mem_singleton.1 h with h'
                subst h'
                refine ⟨ps, hps, fun g hgp _ => ?_⟩
                exact Or.inr (List.mem_append.2 (Or.inl (List.mem_reverse.2 hgp)))

/-- C1: for a module with distinct function names, the async-propagation
worklist terminates within its fuel, and on success computes exactly the
set `A` of the spec: the smallest set containing `runtime.yield` and every
function containing a call to a member of `A` (spawn edges through
`makeGoroutine` excluded), a function named `resume` is never added, and no
function is added twice (the produced insertion-order list has no
duplicates). -/
theorem sum_usesOf_eq_totalUses (m : UseMap) (hnd : (keysOf m).Nodup) :
    ((keysOf m).map (fun y => (usesOf m y).length)).sum = totalUses m := by
  induction m with
  | nil => simp [keysOf, totalUses]
  | cons p rest ih =>
    obtain ⟨k, v⟩ := p
    have hk : k ∉ keysOf rest := by
      simp only [keysOf, List.map_cons, List.nodup_cons] at hnd
      exact hnd.1
    have hnd' : (keysOf rest).Nodup := by
      simp only [keysOf, List.map_cons, List.nodup_cons] at hnd
      exact hnd.2
    have hself : usesOf ((k, v) :: rest) k = v := by
      simp [usesOf, List.lookup]
    have hcongr : (rest.map Prod.fst).map
          (fun y => (usesOf ((k, v) :: rest) y).length)
        = (rest.map Prod.fst).map (fun y => (usesOf rest y).length) := by
      apply List.map_congr_left
      intro y hy
      have hyk : (y == k) = false :=
        beq_eq_false_iff_ne.mpr (fun hcon => hk (hcon ▸ hy))
      simp [usesOf, List.lookup, hyk]
    simp only [keysOf, totalUses, List.map_cons, List.sum_cons] at ih ⊢
    rw [hself, hcongr, ih hnd']

/-- C1: for a module with distinct function names, the async-propagation
worklist terminates within its fuel, and on success computes exactly the
set `A` of the spec: the smallest set containing `runtime.yield` and every
function containing a call to a member of `A` (spawn edges through
`makeGoroutine` excluded), a function named `resume` is never added, and no
function is added twice (the produced insertion-order list has no
duplicates). -/
theorem c1_async_worklist (m : UseMap) (hnd : (keysOf m).Nodup) :
    markAsyncFuncs m ≠ .ok none ∧
    ∀ L, markAsyncFuncs m = .ok (some L) →
      L.Nodup ∧ "resume" ∉ L ∧ ∀ x, x ∈ L ↔ InA m x := by
  constructor
  · unfold markAsyncFuncs
    apply markAsyncLoop_no_fuel_out m hnd
    have hkey := sum_usesOf_eq_totalUses m hnd
    have hsub : ((keysOf m).filter (fun y => decide (y ∉ ([] : List String))))
        = keysOf m := by
      apply List.filter_eq_self.2
      intro z _
      simp
    simp only [phiM, hsub, List.length_singleton]
    omega
  · intro L hrun
    have := markAsyncLoop_char m (2 + totalUses m) ["runtime.yield"] [] L
      (by intro x hx; cases hx)
      (by
        intro x hx
        rcases List.mem_singleton.1 hx with h'
        exact Or.inr (h' ▸ InA.yield))
      List.nodup_nil
      (Or.inr (List.mem_singleton.2 rfl))
      (by intro f hf; cases hf)
      hrun
    obtain ⟨hnodup, hsound, hyield, hclosed⟩ := this
    refine ⟨hnodup, ?_, ?_⟩
    · intro hcon
      exact InA_ne_resume m "resume" (hsound _ hcon) rfl
    · intro x
      constructor
      · exact hsound x
      · intro hx
        induction hx with
        | yield => exact hyield
        | step f g b hf hedge hgr ihf =>
          obtain ⟨ps, hps, hg⟩ := hclosed f ihf
          exact hg g (parentsOfE_mem f (usesOf m f) ps g b hps hedge) hgr

/-! ## The per-function transformation stages of `markAsyncFunctions`

The pass runs, for every function in the async list other than `yield`:
indefinite-blocker injection (§4.3, lines 354-423), call-site rewriting
(§4.4, lines 425-549), tail-yield elimination (§4.5, lines 551-612), return
reactivation (§4.6, lines 614-670), coroutine-frame installation (§4.7,
lines 694-811), and then the global fix-ups (lines 813-884). -/

/-- Result register of an instruction with its type (`none` for void). -/
def regTyOf : Inst → Option (Nat × Ty)
  | .call (some r) rty _ _ => some (r, rty)
  | .call none _ _ _ => none
  | .ret _ => none
  | .alloca r t _ => some (r, Ty.tptr t)
  | .bitcast r _ t _ => some (r, t)
  | .load r t _ _ => some (r, t)
  | .store _ _ => none
  | .br _ => none
  | .switchI _ _ _ => none
  | .intcast r _ t => some (r, t)
  | .miscI (some r) t _ => some (r, t)
  | .miscI none _ _ => none

def resOf (i : Inst) : Option Nat := (regTyOf i).map Prod.fst

def noretCallI : Inst := .call none Ty.void noretName []

def yieldCallI : Inst := .call none Ty.void yieldName []

/-- `CreateRetVoid` or `CreateRet(Undef(returnType))` depending on the
function's return type. -/
def retInstOf (t : Ty) : Inst :=
  if t = Ty.void then .ret none else .ret (some (.undef t))

/-- Largest register number mentioned in a function (used to start the
fresh-register counter of the builder). -/
def valRegs : Val → List Nat
  | .reg n => [n]
  | _ => []

def instRegs (i : Inst) : List Nat :=
  (match regTyOf i with | some (r, _) => [r] | none => []) ++
  (match i with
   | .call _ _ _ args => args.flatMap valRegs
   | .ret v => (v.map valRegs).getD []
   | .alloca _ _ _ => []
   | .bitcast _ v _ _ => valRegs v
   | .load _ _ p _ => valRegs p
   | .store v p => valRegs v ++ valRegs p
   | .br _ => []
   | .switchI v _ _ => valRegs v
   | .intcast _ v _ => valRegs v
   | .miscI _ _ ops => ops.flatMap valRegs)

def fnMaxReg (f : Fn) : Nat :=
  ((f.blocks.map (fun b => (b.insts.map (fun i => (instRegs i).foldr max 0)).foldr max 0)).foldr max 0)

/-- Whether register `r` is used as an operand somewhere in `f`
(`FirstUse` non-nil). -/
def usedRegFn (f : Fn) (r : Nat) : Bool :=
  f.blocks.any fun b => b.insts.any (usesValB (Val.reg r))

/-! ### §4.3 Indefinite-blocker identification and injection (C5) -/

/-- All direct-call callee names in a function, in order. -/
def calleesFn (f : Fn) : List String :=
  f.blocks.flatMap (fun b => b.insts.filterMap calleeOf)

/-- The non-returning classification (lines 364-384): `f` calls `yield`,
never calls `getCoroutine`, and calls no other async function (the callee
comparisons follow the source's if-chain: `yield` first, `getCoroutine`
second, membership in the async set third). -/
def nonReturningFn (a : List String) (f : Fn) : Bool :=
  let cs := calleesFn f
  cs.contains yieldName &&
    !(cs.contains getCoroutineName) &&
    !(cs.any fun c => !(c = yieldName) && !(c = getCoroutineName) && a.contains c)

/-- §4.3 injection for one block (lines 389-415): at the first `yield`
call, insert `noret` and a return before it, and delete the yield together
with every following instruction in the block, collecting the deleted
result registers for the pending undef substitutions. -/
def injectScan (t : Ty) : List Inst → List Inst × List (Nat × Ty)
  | [] => ([], [])
  | i :: rest =>
    if isCallTo yieldName i then
      ([noretCallI, retInstOf t], (i :: rest).filterMap regTyOf)
    else
      let p := injectScan t rest
      (i :: p.1, p.2)

def injectScanned (f : Fn) : List (String × (List Inst × List (Nat × Ty))) :=
  f.blocks.map (fun b => (b.bname, injectScan f.retTy b.insts))

def injectDels (f : Fn) : List (Nat × Val) :=
  ((injectScanned f).map (fun pr => pr.2.2)).flatten.map
    (fun pr => (pr.1, Val.undef pr.2))

/-- §4.3 applied to a function: inject only when classified non-returning. -/
def injectFn (a : List String) (f : Fn) : Fn :=
  if nonReturningFn a f then
    substAllFn (injectDels f)
      { f with blocks := (injectScanned f).map (fun pr => ⟨pr.1, pr.2.1⟩) }
  else f

/-! ### §4.4 Call-site rewriting (C6) -/

/-- Builder state threaded through the call-site rewriting of one
function: fresh-register counter, the shared return-value buffer (register
and its element type) once allocated, the pending entry-block insertions,
and the pending `ReplaceAllUsesWith` substitutions. -/
structure RwSt where
  k : Nat
  retAl : Option (Nat × Ty)
  entry : List Inst
  subs : List (Nat × Val)
deriving DecidableEq

/-- Whether the next-instruction/return-value/return-type conditions of the
async tail-call optimization hold (lines 471-479): the next instruction is
a return, the return types of callee and caller match, and the callee
returns void or the call's result is the operand of the return. -/
def retMatches (res : Option Nat) (rv : Option Val) : Bool :=
  match res, rv with
  | some r, some v => v = Val.reg r
  | _, _ => false

/-- The general "pass coroutine handle, suspend, then load return value"
rewrite of one call site (lines 504-545): a fresh `getCoroutine` call is
passed as the trailing argument; for a non-void callee the shared
return-value buffer is allocated on first need in the entry block, its
byte-pointer published through `setTaskStatePtr` before the call; a `yield`
follows the call, and when the call's result has a use it is reloaded from
the buffer (at the buffer's element type) and substituted. -/
def generalSite (used : Nat → Bool) (st : RwSt) (res : Option Nat) (rty : Ty)
    (c : String) (args : List Val) : List Inst × RwSt :=
  let co := st.k
  let gcI : Inst := .call (some co) Ty.i8ptr getCoroutineName []
  let callI : Inst := .call res rty c (setLastArg args (Val.reg co))
  if rty = Ty.void then
    ([gcI, callI, yieldCallI], { st with k := co + 1 })
  else
    match st.retAl with
    | some (ar, aty) =>
      let d := co + 1
      let pre := [gcI, Inst.bitcast d (Val.reg ar) Ty.i8ptr (""),
                  Inst.call none Ty.void setTaskStatePtrName [Val.reg co, Val.reg d]]
      match res with
      | some r =>
        if used r then
          (pre ++ [callI, yieldCallI, Inst.load (d+1) aty (Val.reg ar) ("coro.retval")],
           { st with k := d + 2, subs := st.subs ++ [(r, Val.reg (d+1))] })
        else (pre ++ [callI, yieldCallI], { st with k := d + 1 })
      | none => (pre ++ [callI, yieldCallI], { st with k := d + 1 })
    | none =>
      let ar := co + 1
      let d := co + 2
      let pre := [gcI, Inst.bitcast d (Val.reg ar) Ty.i8ptr (""),
                  Inst.call none Ty.void setTaskStatePtrName [Val.reg co, Val.reg d]]
      let st1 : RwSt :=
        { st with
            retAl := some (ar, rty)
            entry := st.entry ++ [Inst.alloca ar rty ("coro.retvalAlloca")] }
      match res with
      | some r =>
        if used r then
          (pre ++ [callI, yieldCallI, Inst.load (d+1) rty (Val.reg ar) ("coro.retval")],
           { st1 with k := d + 2, subs := st.subs ++ [(r, Val.reg (d+1))] })
        else (pre ++ [callI, yieldCallI], { st1 with k := d + 1 })
      | none => (pre ++ [callI, yieldCallI], { st1 with k := d + 1 })

/-- §4.4 call-site rewriting over one block's instructions (lines 436-548).
The three rules, first match wins: indefinite-blocker call (undef handle,
`noret` + return, delete the block's remainder), async tail call (pass
`getParentHandle()`, sever the return's use of the call result, emit
`yield` then `noret`), and the general case `generalSite`. -/
def rwInsts (a nr : List String) (fTy : Ty) (used : Nat → Bool) :
    RwSt → List Inst → List Inst × RwSt
  | st, [] => ([], st)
  | st, .call res rty c args :: .ret rv :: rest' =>
    if (a.contains c && !(c = yieldName)) = true then
      if nr.contains c = true then
        let dels := ((Inst.ret rv :: rest').filterMap regTyOf).map
          (fun pr => (pr.1, Val.undef Ty.void))
        ([.call res rty c (setLastArg args (Val.undef Ty.i8ptr)), noretCallI,
          retInstOf fTy],
         { st with subs := st.subs ++ dels })
      else
        if (decide (rty = fTy) && (decide (rty = Ty.void) || retMatches res rv)) = true then
          let ph := st.k
          let sev : Inst := if rty = Ty.void then .ret rv else .ret (some (Val.undef rty))
          let p := rwInsts a nr fTy used { st with k := ph + 1 } (sev :: rest')
          ([Inst.call (some ph) Ty.i8ptr getParentHandleName [],
            .call res rty c (setLastArg args (Val.reg ph)),
            yieldCallI, noretCallI] ++ p.1, p.2)
        else
          let q := generalSite used st res rty c args
          let p := rwInsts a nr fTy used q.2 (Inst.ret rv :: rest')
          (q.1 ++ p.1, p.2)
    else
      let p := rwInsts a nr fTy used st (Inst.ret rv :: rest')
      (Inst.call res rty c args :: p.1, p.2)
  | st, .call res rty c args :: rest =>
    if (a.contains c && !(c = yieldName)) = true then
      if nr.contains c = true then
        let dels := (rest.filterMap regTyOf).map (fun pr => (pr.1, Val.undef Ty.void))
        ([.call res rty c (setLastArg args (Val.undef Ty.i8ptr)), noretCallI,
          retInstOf fTy],
         { st with subs := st.subs ++ dels })
      else
        let q := generalSite used st res rty c args
        let p := rwInsts a nr fTy used q.2 rest
        (q.1 ++ p.1, p.2)
    else
      let p := rwInsts a nr fTy used st rest
      (Inst.call res rty c args :: p.1, p.2)
  | st, i :: rest =>
    let p := rwInsts a nr fTy used st rest
    (i :: p.1, p.2)
termination_by _ l => l.length
decreasing_by all_goals simp_wf

/-- §4.4 applied to a whole function: rewrite every block left to right,
prepend any allocated return-value buffer to the entry block, and apply the
pending substitutions. -/
def rwFn (a nr : List String) (f : Fn) : Fn :=
  let st0 : RwSt := ⟨fnMaxReg f + 1, none, [], []⟩
  let step := f.blocks.foldl (fun (acc : List BB × RwSt) b =>
      let p := rwInsts a nr f.retTy (usedRegFn f) acc.2 b.insts
      (acc.1 ++ [⟨b.bname, p.1⟩], p.2)) ([], st0)
  let withEntry : List BB :=
    match step.1 with
    | [] => []
    | b0 :: rest => ⟨b0.bname, step.2.entry ++ b0.insts⟩ :: rest
  substAllFn step.2.subs { f with blocks := withEntry }

/-! ### §4.5 Tail-yield elimination (C8) -/

/-- Whether a yield whose following instruction is `n?` may be ditched
(lines 572-586): the next instruction is a `noret` call, or a return while
the function returns void.  A yield with no following instruction cannot
occur in well-formed input (a terminator always follows a call). -/
def ditchableNext (fTy : Ty) : Option Inst → Bool
  | some n => isCallTo noretName n || (isRet n && decide (fTy = Ty.void))
  | none => false

/-- The `yield` calls of an instruction list, each paired with the
instruction immediately following it. -/
def yieldNexts : List Inst → List (Option Inst)
  | [] => []
  | [i] => if isCallTo yieldName i then [none] else []
  | i :: next :: rest =>
    (if isCallTo yieldName i then [some next] else []) ++ yieldNexts (next :: rest)

/-- `canDitch` (lines 560-596): there is at least one yield and every yield
is ditchable. -/
def canDitch (fTy : Ty) (f : Fn) : Bool :=
  let ys := (f.blocks.map (fun b => yieldNexts b.insts)).flatten
  !ys.isEmpty && ys.all (ditchableNext fTy)

/-- The ditching rewrite for one block (lines 598-611): delete every yield;
a yield followed by a return gets a `noret` in its place. -/
def ditchRw : List Inst → List Inst
  | [] => []
  | i :: rest =>
    if isCallTo yieldName i then
      (match rest.head? with
       | some n => if isRet n then noretCallI :: ditchRw rest else ditchRw rest
       | none => ditchRw rest)
    else i :: ditchRw rest

def ditchFn (f : Fn) : Fn :=
  if canDitch f.retTy f then
    { f with blocks := f.blocks.map (fun b => ⟨b.bname, ditchRw b.insts⟩) }
  else f

/-! ### §4.6 Return reactivation (C7) -/

/-- The entry-block sequence materialized once per non-void function:
obtain the parent's task-state pointer and cast it to a pointer to the
return type (lines 636-644).  `k0` is the base fresh register. -/
def reactEntrySeq (fTy : Ty) (k0 : Nat) : List Inst :=
  [Inst.call (some k0) Ty.i8ptr getParentHandleName [],
   Inst.call (some (k0+1)) Ty.i8ptr getTaskStatePtrName [Val.reg k0],
   Inst.bitcast (k0+2) (Val.reg (k0+1)) (Ty.tptr fTy) ("retPtr")]

/-- §4.6 for one block (lines 623-669): stop at the first `noret` (the
block is skipped), or rewrite the first return: store the return value
through the parent's task-state pointer (non-void only, creating the
entry-block sequence on first need), emit `activateTask(getParentHandle())`
and a `noret` before the return, and keep the return itself.  The state is
the fresh-register counter and the base register of the created entry
sequence (its bitcast register is base+2).  The source mangles the kept
return's operand with `Undef(inst.Type())`, where `inst` is the return
instruction itself, whose type is void. -/
def reactInsts (fTy : Ty) : Nat → Option Nat → List Inst →
    List Inst × Nat × Option Nat
  | k, rp, [] => ([], k, rp)
  | k, rp, i :: rest =>
    if isCallTo noretName i then (i :: rest, k, rp)
    else
      match i with
      | .ret rv =>
        if fTy = Ty.void then
          ([Inst.call (some k) Ty.i8ptr getParentHandleName [],
            Inst.call none Ty.void activateTaskName [Val.reg k],
            noretCallI, Inst.ret rv] ++ rest, k + 1, rp)
        else
          match rp with
          | some k0 =>
            ([Inst.store (rv.getD (Val.undef fTy)) (Val.reg (k0+2)),
              Inst.call (some k) Ty.i8ptr getParentHandleName [],
              Inst.call none Ty.void activateTaskName [Val.reg k],
              noretCallI, Inst.ret (some (Val.undef Ty.void))] ++ rest,
             k + 1, some k0)
          | none =>
            ([Inst.store (rv.getD (Val.undef fTy)) (Val.reg (k+2)),
              Inst.call (some (k+3)) Ty.i8ptr getParentHandleName [],
              Inst.call none Ty.void activateTaskName [Val.reg (k+3)],
              noretCallI, Inst.ret (some (Val.undef Ty.void))] ++ rest,
             k + 4, some k)
      | _ =>
        let p := reactInsts fTy k rp rest
        (i :: p.1, p.2.1, p.2.2)

def reactBlocks (fTy : Ty) : Nat → Option Nat → List BB →
    List BB × Nat × Option Nat
  | k, rp, [] => ([], k, rp)
  | k, rp, b :: rest =>
    let p := reactInsts fTy k rp b.insts
    let q := reactBlocks fTy p.2.1 p.2.2 rest
    (⟨b.bname, p.1⟩ :: q.1, q.2)

/-- Prepend the entry sequence (when one was created, `k0?` is its base
register) to the entry block. -/
def reactAssemble (fTy : Ty) (bs : List BB) (k0? : Option Nat) : List BB :=
  match k0?, bs with
  | none, bs => bs
  | some _, [] => []
  | some k0, b0 :: rest => ⟨b0.bname, reactEntrySeq fTy k0 ++ b0.insts⟩ :: rest

/-- §4.6 applied to a function: rewrite every block and, when the
entry sequence was created, prepend it to the entry block. -/
def reactFn (f : Fn) : Fn :=
  let p := reactBlocks f.retTy (fnMaxReg f + 1) none f.blocks
  { f with blocks := reactAssemble f.retTy p.1 p.2.2 }

/-! ### §4.7 Coroutine-frame installation (C3) -/

/-- Target data consulted by the frame installer: allocation sizes of `i32`
and `uintptr` (for the size cast) and whether the target needs GC stack
objects. -/
structure Cfg where
  i32Size : Nat
  ptrSize : Nat
  stackObjects : Bool
deriving DecidableEq

/-- The narrowing/widening of the `coro.size` result to `uintptr` (lines
749-753; `CreateTrunc` when i32 is wider, `CreateZExt` when narrower, both
modelled as `intcast`). -/
def sizeCastInsts (cfg : Cfg) (szr : Nat) : List Inst × Val :=
  if cfg.i32Size > cfg.ptrSize then
    ([Inst.intcast (szr+1) (Val.reg szr) (Ty.tint cfg.ptrSize)], Val.reg (szr+1))
  else if cfg.i32Size < cfg.ptrSize then
    ([Inst.intcast (szr+1) (Val.reg szr) (Ty.tint cfg.ptrSize)], Val.reg (szr+1))
  else ([], Val.reg szr)

/-- The entry-block prelude of the frame installer (lines 734-760):
task-state alloca, bitcast, `coro.id`, `coro.size`, size cast, `alloc`,
optional GC pointer tracking, `coro.begin`.  Returns the instruction list,
the task-handle register, the coro-id token register, and the next fresh
register. -/
def installPrelude (cfg : Cfg) (k : Nat) : List Inst × Nat × Nat × Nat :=
  let ts := k
  let si := k+1
  let idr := k+2
  let szr := k+3
  let castP := sizeCastInsts cfg szr
  let k1 := if castP.1.isEmpty then szr + 1 else szr + 2
  let datar := k1
  let track : List Inst :=
    if cfg.stackObjects then [Inst.call none Ty.void trackPointerName [Val.reg datar]]
    else []
  let thr := k1 + 1
  ([Inst.alloca ts Ty.taskState ("task.state"),
    Inst.bitcast si (Val.reg ts) Ty.i8ptr ("task.state.i8"),
    Inst.call (some idr) Ty.token coroIdName
      [Val.cint Ty.i32 0, Val.reg si, Val.nullv Ty.i8ptr, Val.nullv Ty.i8ptr],
    Inst.call (some szr) Ty.i32 coroSizeName []] ++ castP.1 ++
   [Inst.call (some datar) Ty.i8ptr allocName [castP.2]] ++ track ++
   [Inst.call (some thr) Ty.i8ptr coroBeginName [Val.reg idr, Val.reg datar]],
   thr, idr, thr + 1)

/-- The cleanup block (lines 762-766). -/
def cleanupBB (idr thr memr : Nat) : BB :=
  ⟨"task.cleanup",
   [Inst.call (some memr) Ty.i8ptr coroFreeName [Val.reg idr, Val.reg thr],
    Inst.call none Ty.void freeName [Val.reg memr],
    Inst.br ("task.suspend")]⟩

/-- The suspend block (lines 768-776). -/
def suspendBB (fTy : Ty) (thr ur : Nat) : BB :=
  ⟨"task.suspend",
   [Inst.call (some ur) Ty.i1 coroEndName [Val.reg thr, Val.cint Ty.i1 0],
    retInstOf fTy]⟩

def wakeupName (n : Nat) : String := "task.wakeup" ++ toString n

/-- Replacing every yield with `coro.suspend` plus a three-way dispatch
switch, splitting the block just after the switch into a wakeup block
(lines 778-791; the `splitBasicBlock` helper lives outside this repository,
its block-splitting behaviour follows spec §4.7: the switch terminates the
pre-split block, the instructions after the erased yield form the wakeup
block inserted right after it).  Source wakeup blocks are all named
"task.wakeup" and uniquified by LLVM; here they carry a counter. -/
def splitYieldsGo (bn : String) : Nat → List Inst → List Inst → List BB × Nat
  | k, acc, [] => ([⟨bn, acc.reverse⟩], k)
  | k, acc, i :: rest =>
    if isCallTo yieldName i then
      let cp := k
      let wk := wakeupName (k+1)
      let p := splitYieldsGo wk (k+2) [] rest
      (⟨bn, acc.reverse ++
         [Inst.call (some cp) Ty.i8 coroSuspendName
            [Val.nullv Ty.token, Val.cint Ty.i1 0],
          Inst.switchI (Val.reg cp) ("task.suspend") [(0, wk), (1, "task.cleanup")]]⟩
        :: p.1, p.2)
    else splitYieldsGo bn k (i :: acc) rest

/-- The post-split sweep of one block (lines 792-810): every `getCoroutine`
call is removed and its result replaced by the task handle; every `noret`
is replaced by a branch to the cleanup block, dropping the dead instruction
that follows it (`rest.tail` skips that instruction when one exists). -/
def sweepInsts (thr : Nat) : List Inst → List Inst × List (Nat × Val)
  | [] => ([], [])
  | i :: rest =>
    if isCallTo getCoroutineName i then
      let p := sweepInsts thr rest
      (p.1, (match resOf i with
             | some r => (r, Val.reg thr) :: p.2
             | none => p.2))
    else if isCallTo noretName i then
      let p := sweepInsts thr rest.tail
      (Inst.br ("task.cleanup") :: p.1, p.2)
    else
      let p := sweepInsts thr rest
      (i :: p.1, p.2)
termination_by l => l.length
decreasing_by
  all_goals simp_wf
  all_goals omega

/-- §4.7: zero-yield async functions are not LLVM-ified; each `getCoroutine`
call is replaced in place by a `getParentHandle()` call (lines 709-723). -/
def replaceGetCoroutineZero : Nat → List Inst → List Inst × Nat × List (Nat × Val)
  | k, [] => ([], k, [])
  | k, i :: rest =>
    if isCallTo getCoroutineName i then
      let p := replaceGetCoroutineZero (k+1) rest
      (Inst.call (some k) Ty.i8ptr getParentHandleName [] :: p.1, p.2.1,
       (match resOf i with
        | some r => (r, Val.reg k) :: p.2.2
        | none => p.2.2))
    else
      let p := replaceGetCoroutineZero k rest
      (i :: p.1, p.2)

/-- §4.7 applied to a function (lines 694-811). -/
def installFn (cfg : Cfg) (f : Fn) : Fn :=
  if countFn yieldName f = 0 then
    let step := f.blocks.foldl (fun (acc : List BB × Nat × List (Nat × Val)) b =>
        let p := replaceGetCoroutineZero acc.2.1 b.insts
        (acc.1 ++ [⟨b.bname, p.1⟩], p.2.1, acc.2.2 ++ p.2.2))
      ([], fnMaxReg f + 1, [])
    substAllFn step.2.2 { f with blocks := step.1 }
  else
    let k0 := fnMaxReg f + 1
    let pre := installPrelude cfg k0
    let thr := pre.2.1
    let idr := pre.2.2.1
    let k1 := pre.2.2.2
    let blocks1 : List BB :=
      match f.blocks with
      | [] => []
      | b0 :: rest => ⟨b0.bname, pre.1 ++ b0.insts⟩ :: rest
    let split := blocks1.foldl (fun (acc : List BB × Nat) b =>
        let p := splitYieldsGo b.bname acc.2 [] b.insts
        (acc.1 ++ p.1, p.2)) ([], k1)
    let memr := split.2
    let ur := split.2 + 1
    let blocks2 := split.1 ++ [cleanupBB idr thr memr, suspendBB f.retTy thr ur]
    let swept := blocks2.map (fun b => (b.bname, sweepInsts thr b.insts))
    substAllFn ((swept.map (fun pr => pr.2.2)).flatten)
      { f with blocks := swept.map (fun pr => ⟨pr.1, pr.2.1⟩) }

/-! ### §4.8 Global fix-ups (C4) -/

/-- Drop every `getParentHandle` call, substituting its result with the
function's trailing `parentHandle` parameter (lines 822-833). -/
def rewriteGPHList : List Inst → List Inst × List (Nat × Val)
  | [] => ([], [])
  | i :: rest =>
    if isCallTo getParentHandleName i then
      let p := rewriteGPHList rest
      (p.1, (match resOf i with
             | some r => (r, Val.param ("parentHandle")) :: p.2
             | none => p.2))
    else
      let p := rewriteGPHList rest
      (i :: p.1, p.2)

def lastParamName (f : Fn) : Option String := (f.params.getLast?).map Prod.fst

/-- The `getParentHandle` rewrite for one function: fatal when a function
containing a `getParentHandle` use does not end in a `parentHandle`
parameter. -/
def rewriteGPHFn (f : Fn) : Except String Fn :=
  if countFn getParentHandleName f = 0 then .ok f
  else if lastParamName f = some ("parentHandle") then
    .ok (let scanned := f.blocks.map (fun b => (b.bname, rewriteGPHList b.insts));
         substAllFn ((scanned.map (fun pr => pr.2.2)).flatten)
           { f with blocks := scanned.map (fun pr => ⟨pr.1, pr.2.1⟩) })
  else .error ("trying to make exported function async: " ++ f.fname)

/-- Delete all remaining `noret` calls (lines 880-883). -/
def eraseNoretFn (f : Fn) : Fn :=
  { f with blocks :=
      f.blocks.map (fun b => ⟨b.bname, b.insts.filter (fun i => !(isCallTo noretName i))⟩) }

/-- The names reported by the leftover-`getCoroutine` check, one per
remaining use (lines 813-820). -/
def leftoverGetCoroutineNames (fs : List Fn) : List String :=
  fs.flatMap (fun f => List.replicate (countFn getCoroutineName f) f.fname)

def leftoverCheck (fs : List Fn) : Except String Unit :=
  match leftoverGetCoroutineNames fs with
  | [] => .ok ()
  | l => .error ("bad use of getCoroutine: " ++ String.intercalate (",") l)

/-- The per-function body pipeline of `markAsyncFunctions`, stages §4.3 to
§4.7 in source order. -/
def lowerFnBody (a nr : List String) (cfg : Cfg) (f : Fn) : Fn :=
  installFn cfg (reactFn (ditchFn (rwFn a nr (injectFn a f))))

/-! ## C5 — indefinite-blocker classification and injection -/

/-- One instruction under a queue of pending substitutions, applied in
queue order. -/
def substInstAll (prs : List (Nat × Val)) (i : Inst) : Inst :=
  prs.foldl (fun j pr => substInst pr.1 pr.2 j) i

theorem substAllFn_blocks (prs : List (Nat × Val)) (f : Fn) :
    (substAllFn prs f).blocks
      = f.blocks.map (fun b => ⟨b.bname, b.insts.map (substInstAll prs)⟩) := by
  induction prs generalizing f with
  | nil =>
    have hb : ∀ b : BB, (⟨b.bname, b.insts.map (substInstAll [])⟩ : BB) = b := by
      intro b
      cases b with
      | mk nm insts =>
        simp only [show substInstAll [] = fun i => i from rfl]
        simp
    show f.blocks = _
    exact ((List.map_congr_left (fun b _ => hb b)).trans (List.map_id _)).symm
  | cons p rest ih =>
    simp only [substAllFn, List.foldl_cons] at ih ⊢
    rw [ih (substFn p.1 p.2 f)]
    simp only [substFn, List.map_map]
    apply List.map_congr_left
    intro b _
    simp [Function.comp, substBB, substInstAll, List.map_map]

theorem substAllFn_params (prs : List (Nat × Val)) (f : Fn) :
    (substAllFn prs f).params = f.params := by
  induction prs generalizing f with
  | nil => rfl
  | cons p rest ih =>
    simp only [substAllFn, List.foldl_cons] at ih ⊢
    rw [ih (substFn p.1 p.2 f)]
    rfl

theorem substAllFn_retTy (prs : List (Nat × Val)) (f : Fn) :
    (substAllFn prs f).retTy = f.retTy := by
  induction prs generalizing f with
  | nil => rfl
  | cons p rest ih =>
    simp only [substAllFn, List.foldl_cons] at ih ⊢
    rw [ih (substFn p.1 p.2 f)]
    rfl

theorem substInstAll_noret (prs : List (Nat × Val)) :
    substInstAll prs noretCallI = noretCallI := by
  induction prs with
  | nil => rfl
  | cons p rest ih => simpa [substInstAll, substInst, noretCallI] using ih

theorem substInstAll_ret (prs : List (Nat × Val)) (t : Ty) :
    substInstAll prs (retInstOf t) = retInstOf t := by
  induction prs with
  | nil => rfl
  | cons p rest ih =>
    by_cases ht : t = Ty.void <;>
      simpa [substInstAll, substInst, retInstOf, ht, substVal] using ih

theorem injectScan_no_yield (t : Ty) (l : List Inst)
    (h : countIn yieldName l = 0) : injectScan t l = (l, []) := by
  induction l with
  | nil => rfl
  | cons i rest ih =>
    rw [countIn_cons] at h
    have hni : isCallTo yieldName i = false := by
      by_cases hc : isCallTo yieldName i = true
      · rw [hc] at h; simp at h
      · simpa using hc
    have hrest : countIn yieldName rest = 0 := by
      rw [hni] at h; simpa using h
    simp [injectScan, hni, ih hrest]

theorem injectScan_yield (t : Ty) (l : List Inst)
    (h : 0 < countIn yieldName l) :
    (injectScan t l).1
      = l.takeWhile (fun i => !(isCallTo yieldName i)) ++ []
        ++ [noretCallI, retInstOf t] := by
  induction l with
  | nil => simp [countIn] at h
  | cons i rest ih =>
    by_cases hc : isCallTo yieldName i = true
    · simp [injectScan, hc, List.takeWhile_cons, noretCallI]
    · have hb : isCallTo yieldName i = false := by simpa using hc
      rw [countIn_cons, hb] at h
      have hrest : 0 < countIn yieldName rest := by simpa using h
      have := ih hrest
      simp [injectScan, hb, List.takeWhile_cons, this]

/-- Modelled from the spec (claim C5's words): `f` is non-returning iff it
calls `yield`, does not call `getCoroutine`, and does not call any other
member of `A`. -/
def SpecNonReturning (a : List String) (f : Fn) : Prop :=
  yieldName ∈ calleesFn f ∧ getCoroutineName ∉ calleesFn f ∧
    ¬∃ c, c ∈ calleesFn f ∧ c ∈ a ∧ c ≠ yieldName

def injectSubstI (f : Fn) : Inst → Inst := substInstAll (injectDels f)

theorem contains_true_iff (l : List String) (x : String) :
    l.contains x = true ↔ x ∈ l := List.elem_iff

theorem contains_false_iff (l : List String) (x : String) :
    l.contains x = false ↔ x ∉ l := by
  constructor
  · intro h hc
    have h2 := (contains_true_iff l x).mpr hc
    rw [h] at h2
    cases h2
  · intro h
    by_cases hc : l.contains x = true
    · exact absurd ((contains_true_iff l x).mp hc) h
    · simpa using hc

theorem nonReturningFn_iff (a : List String) (f : Fn) :
    nonReturningFn a f = true ↔ SpecNonReturning a f := by
  unfold nonReturningFn SpecNonReturning
  constructor
  · intro h
    simp only [Bool.and_eq_true, Bool.not_eq_true'] at h
    obtain ⟨⟨hy, hg⟩, hany⟩ := h
    have hy' : yieldName ∈ calleesFn f := (contains_true_iff _ _).mp hy
    have hg' : getCoroutineName ∉ calleesFn f := (contains_false_iff _ _).mp hg
    refine ⟨hy', hg', ?_⟩
    rintro ⟨c, hc, hca, hcy⟩
    have hcg : c ≠ getCoroutineName := fun hcon => hg' (hcon ▸ hc)
    have hP : (calleesFn f).any
        (fun c => !(c = yieldName) && !(c = getCoroutineName) && a.contains c)
          = true :=
      List.any_eq_true.mpr ⟨c, hc, by
        have hac := (contains_true_iff a c).mpr hca
        simp [hcy, hcg, hac, hca]⟩
    rw [hany] at hP
    cases hP
  · rintro ⟨hy, hg, hne⟩
    simp only [Bool.and_eq_true, Bool.not_eq_true']
    refine ⟨⟨(contains_true_iff _ _).mpr hy, (contains_false_iff _ _).mpr hg⟩, ?_⟩
    rw [List.any_eq_false]
    intro c hc
    by_cases h1 : c = yieldName
    · simp [h1]
    · by_cases h2 : c = getCoroutineName
      · simp [h1, h2]
      · have hca : c ∉ a := fun hcon => hne ⟨c, hc, hcon, h1⟩
        have hcf : a.contains c = false := (contains_false_iff a c).mpr hca
        simp only [hcf, h1, h2]
        simp

/-- C5: a function is classified non-returning exactly when it calls
`yield`, does not call `getCoroutine` and calls no other member of `A`;
when classified, the pass injects a `noret` call and a return (void, or
undef of the return type) immediately before the first yield of every
block containing one and deletes the yield and all following instructions
of that block (their uses replaced by undef); otherwise the function is
untouched. -/
theorem c5_indefinite_blocker (a : List String) (f : Fn) :
    (nonReturningFn a f = true ↔ SpecNonReturning a f) ∧
    (nonReturningFn a f = false → injectFn a f = f) ∧
    (nonReturningFn a f = true →
      (injectFn a f).blocks.length = f.blocks.length ∧
      ∀ j b, f.blocks.get? j = some b →
        ∃ b', (injectFn a f).blocks.get? j = some b' ∧ b'.bname = b.bname ∧
          (countIn yieldName b.insts = 0 →
            b'.insts = b.insts.map (injectSubstI f)) ∧
          (0 < countIn yieldName b.insts →
            b'.insts
              = (b.insts.takeWhile (fun i => !(isCallTo yieldName i))).map
                  (injectSubstI f)
                ++ [noretCallI, retInstOf f.retTy])) := by
  refine ⟨nonReturningFn_iff a f, ?_, ?_⟩
  · intro h
    unfold injectFn
    rw [h]
    simp
  · intro h
    have hblocks : (injectFn a f).blocks
        = (f.blocks.map (fun b => (⟨b.bname, (injectScan f.retTy b.insts).1⟩ : BB))).map
            (fun b => (⟨b.bname, b.insts.map (injectSubstI f)⟩ : BB)) := by
      unfold injectFn
      rw [h]
      simp only [if_true, injectSubstI]
      rw [substAllFn_blocks]
      simp [injectScanned, List.map_map, Function.comp]
    constructor
    · rw [hblocks]; simp
    · intro j b hb
      rw [hblocks]
      refine ⟨(⟨b.bname, ((injectScan f.retTy b.insts).1).map (injectSubstI f)⟩ : BB),
        ?_, rfl, ?_, ?_⟩
      · rw [List.get?_map, List.get?_map, hb]
        rfl
      · intro hz
        rw [injectScan_no_yield f.retTy _ hz]
      · intro hpos
        have hy := injectScan_yield f.retTy b.insts hpos
        simp only [List.append_nil] at hy
        simp only [hy]
        simp [List.map_append, substInstAll_noret, substInstAll_ret, injectSubstI]

/-! ## C8 — tail-yield elimination -/

/-- Modelled from the spec (claim C8's words): the instruction following a
yield makes the yield ditchable when it is a `noret` call or a return of a
void function. -/
def SpecDitchable (fTy : Ty) (n : Inst) : Prop :=
  isCallTo noretName n = true ∨ (isRet n = true ∧ fTy = Ty.void)

theorem ditchableNext_iff (fTy : Ty) (o : Option Inst) :
    ditchableNext fTy o = true ↔ ∃ n, o = some n ∧ SpecDitchable fTy n := by
  cases o with
  | none => simp [ditchableNext]
  | some n =>
    simp only [ditchableNext, Bool.or_eq_true, Bool.and_eq_true, decide_eq_true_eq]
    constructor
    · rintro (h | ⟨h1, h2⟩)
      · exact ⟨n, rfl, Or.inl h⟩
      · exact ⟨n, rfl, Or.inr ⟨h1, h2⟩⟩
    · rintro ⟨m, hm, hd⟩
      cases hm
      rcases hd with h | ⟨h1, h2⟩
      · exact Or.inl h
      · exact Or.inr ⟨h1, h2⟩

theorem yieldNexts_cons (i : Inst) (rest : List Inst) :
    yieldNexts (i :: rest)
      = (if isCallTo yieldName i then [rest.head?] else []) ++ yieldNexts rest := by
  cases rest with
  | nil => by_cases h : isCallTo yieldName i = true <;> simp [yieldNexts, h]
  | cons n rs => by_cases h : isCallTo yieldName i = true <;> simp [yieldNexts, h]

theorem yield_call_not_noret (i : Inst) (hy : isCallTo yieldName i = true) :
    isCallTo noretName i = false := by
  cases i with
  | call res rty c args =>
    simp only [isCallTo, decide_eq_true_eq] at hy ⊢
    simp [hy, yieldName, noretName]
  | ret v => simp [isCallTo]
  | alloca r t nm => simp [isCallTo]
  | bitcast r v t nm => simp [isCallTo]
  | load r t p nm => simp [isCallTo]
  | store v p => simp [isCallTo]
  | br d => simp [isCallTo]
  | switchI v d cs => simp [isCallTo]
  | intcast r v t => simp [isCallTo]
  | miscI r t ops => simp [isCallTo]

theorem ditchRw_yield_count (l : List Inst) :
    countIn yieldName (ditchRw l) = 0 := by
  induction l with
  | nil => rfl
  | cons i rest ih =>
    by_cases hy : isCallTo yieldName i = true
    · simp only [ditchRw, hy, if_true]
      cases hh : rest.head? with
      | none => simp only [hh]; exact ih
      | some n =>
        simp only [hh]
        by_cases hr : isRet n = true
        · simp only [hr, if_true]
          rw [countIn_cons]
          have hnc : isCallTo yieldName noretCallI = false := by
            simp [noretCallI, isCallTo, yieldName, noretName]
          rw [hnc]
          simpa using ih
        · have hrb : isRet n = false := by simpa using hr
          simp only [hrb, Bool.false_eq_true, if_false]
          exact ih
    · have hb : isCallTo yieldName i = false := by simpa using hy
      simp only [ditchRw, hb, Bool.false_eq_true, if_false]
      rw [countIn_cons, hb]
      simpa using ih

/-- Number of yields whose following instruction is a return. -/
def retYieldCount (l : List Inst) : Nat :=
  ((yieldNexts l).filter (fun o =>
    match o with
    | some n => isRet n
    | none => false)).length

theorem ditchRw_noret_count (l : List Inst) :
    countIn noretName (ditchRw l) = countIn noretName l + retYieldCount l := by
  induction l with
  | nil => rfl
  | cons i rest ih =>
    have hyn := yieldNexts_cons i rest
    by_cases hy : isCallTo yieldName i = true
    · have hni : isCallTo noretName i = false := yield_call_not_noret i hy
      simp only [ditchRw, hy, if_true]
      cases hh : rest.head? with
      | none =>
        have hrnil : rest = [] := List.head?_eq_none_iff.mp hh
        subst hrnil
        simp [retYieldCount, yieldNexts, hy, countIn_cons, hni, ditchRw, countIn]
      | some n =>
        simp only [hh]
        have hryc : retYieldCount (i :: rest)
            = (if isRet n = true then 1 else 0) + retYieldCount rest := by
          simp only [retYieldCount, hyn, hy, if_true, hh, List.filter_append]
          by_cases hr : isRet n = true
          · simp [hr]
            omega
          · have hrb : isRet n = false := by simpa using hr
            simp [hrb]
        by_cases hr : isRet n = true
        · simp only [hr, if_true]
          rw [countIn_cons, ih, countIn_cons, hni, hryc]
          have hnn : isCallTo noretName noretCallI = true := by
            simp [noretCallI, isCallTo]
          rw [hnn, hr]
          simp only [if_true, show (if (false = true) then (1:Nat) else 0) = 0 from rfl]
          omega
        · have hrb : isRet n = false := by simpa using hr
          simp only [hrb, Bool.false_eq_true, if_false]
          rw [ih, countIn_cons, hni, hryc, hrb]
          simp only [Bool.false_eq_true, if_false]
          omega
    · have hb : isCallTo yieldName i = false := by simpa using hy
      have hryc : retYieldCount (i :: rest) = retYieldCount rest := by
        simp [retYieldCount, hyn, hb]
      simp only [ditchRw, hb, Bool.false_eq_true, if_false]
      rw [countIn_cons, ih, countIn_cons, hryc]
      omega

theorem countFn_of_blocks_map (nm : String) (f' : Fn) (bs : List BB)
    (g : List Inst → List Inst)
    (h : f'.blocks = bs.map (fun b => ⟨b.bname, g b.insts⟩)) :
    countFn nm f' = (bs.map (fun b => countIn nm (g b.insts))).sum := by
  unfold countFn
  rw [h, List.map_map]
  apply congrArg List.sum
  apply List.map_congr_left
  intro b _
  rfl

theorem sum_map_ditch (bs : List BB) :
    (bs.map (fun b => countIn noretName (ditchRw b.insts))).sum
      = (bs.map (fun b => countIn noretName b.insts)).sum
        + (bs.map (fun b => retYieldCount b.insts)).sum := by
  induction bs with
  | nil => rfl
  | cons b rest ih =>
    simp only [List.map_cons, List.sum_cons]
    rw [ditchRw_noret_count]
    omega

/-- C8: a yield is ditchable exactly when the next instruction is a `noret`
call or a return of a void function; tail-yield elimination is
all-or-nothing: when some yield is not ditchable nothing changes, and when
every yield (of at least one) is ditchable every yield is removed, with a
`noret` inserted in place of each yield that preceded a return. -/
theorem c8_tail_yield (f : Fn) :
    (∀ o : Option Inst, ditchableNext f.retTy o = true ↔
      ∃ n, o = some n ∧ SpecDitchable f.retTy n) ∧
    (canDitch f.retTy f = false → ditchFn f = f) ∧
    (canDitch f.retTy f = true →
      countFn yieldName (ditchFn f) = 0 ∧
      countFn noretName (ditchFn f)
        = countFn noretName f + (f.blocks.map (fun b => retYieldCount b.insts)).sum ∧
      (ditchFn f).blocks = f.blocks.map (fun b => ⟨b.bname, ditchRw b.insts⟩)) ∧
    (canDitch f.retTy f = true ↔
      ((f.blocks.map (fun b => yieldNexts b.insts)).flatten ≠ [] ∧
        ∀ o ∈ (f.blocks.map (fun b => yieldNexts b.insts)).flatten,
          ∃ n, o = some n ∧ SpecDitchable f.retTy n)) := by
  refine ⟨fun o => ditchableNext_iff f.retTy o, ?_, ?_, ?_⟩
  · intro h
    unfold ditchFn
    rw [h]
    simp
  · intro h
    have hblocks : (ditchFn f).blocks
        = f.blocks.map (fun b => ⟨b.bname, ditchRw b.insts⟩) := by
      unfold ditchFn
      rw [h]
      simp
    refine ⟨?_, ?_, hblocks⟩
    · rw [countFn_of_blocks_map yieldName (ditchFn f) f.blocks ditchRw hblocks]
      rw [List.sum_eq_zero]
      intro x hx
      simp only [List.mem_map] at hx
      obtain ⟨b, _, hb⟩ := hx
      rw [← hb, ditchRw_yield_count]
    · rw [countFn_of_blocks_map noretName (ditchFn f) f.blocks ditchRw hblocks,
        sum_map_ditch]
      rfl
  · unfold canDitch
    simp only [Bool.and_eq_true, Bool.not_eq_true']
    constructor
    · rintro ⟨h1, h2⟩
      refine ⟨?_, ?_⟩
      · intro hcon
        rw [hcon] at h1
        simp at h1
      · intro o ho
        exact (ditchableNext_iff f.retTy o).mp (List.all_eq_true.mp h2 o ho)
    · rintro ⟨h1, h2⟩
      refine ⟨?_, ?_⟩
      · cases hys : (f.blocks.map (fun b => yieldNexts b.insts)).flatten with
        | nil => exact absurd hys h1
        | cons o os => simp [hys]
      · exact List.all_eq_true.mpr fun o ho =>
          (ditchableNext_iff f.retTy o).mpr (h2 o ho)

/-! ## C7 — return reactivation -/

/-- The instructions at which the §4.6 scan stops: a `noret` call or a
return. -/
def reactHit (i : Inst) : Bool := isCallTo noretName i || isRet i

/-- No return occurs before the first `noret` call of the block (every
return is "skipped" behind a noret). -/
def blockRetOk : List Inst → Bool
  | [] => true
  | i :: rest =>
    if isCallTo noretName i then true
    else if isRet i then false
    else blockRetOk rest

theorem blockRetOk_append_nonhit (xs l : List Inst)
    (hx : ∀ x ∈ xs, reactHit x = false) :
    blockRetOk (xs ++ l) = blockRetOk l := by
  induction xs with
  | nil => rfl
  | cons x rest ih =>
    have hx1 := hx x (List.mem_cons_self _ _)
    simp only [reactHit, Bool.or_eq_false_iff] at hx1
    have h1 : isCallTo noretName x = false := hx1.1
    have h2 : isRet x = false := hx1.2
    simp only [List.cons_append, blockRetOk, h1, h2]
    simp only [Bool.false_eq_true, if_false]
    exact ih (fun y hy => hx y (List.mem_cons_of_mem _ hy))

theorem reactInsts_blockRetOk (fTy : Ty) (l : List Inst) :
    ∀ k rp, blockRetOk (reactInsts fTy k rp l).1 = true := by
  induction l with
  | nil => intro k rp; rfl
  | cons i rest ih =>
    intro k rp
    by_cases hn : isCallTo noretName i = true
    · simp [reactInsts, hn, blockRetOk]
    · have hnb : isCallTo noretName i = false := by simpa using hn
      cases i with
      | ret rv =>
        by_cases hv : fTy = Ty.void
        · simp [reactInsts, hnb, hv, blockRetOk, isCallTo, isRet,
            getParentHandleName, noretName, activateTaskName, noretCallI]
        · cases rp with
          | some k0 =>
            simp [reactInsts, hnb, hv, blockRetOk, isCallTo, isRet,
              getParentHandleName, noretName, activateTaskName, noretCallI]
          | none =>
            simp [reactInsts, hnb, hv, blockRetOk, isCallTo, isRet,
              getParentHandleName, noretName, activateTaskName, noretCallI]
      | call res rty c args =>
        simpa [reactInsts, hnb, blockRetOk, isRet] using ih k rp
      | alloca r t nm => simpa [reactInsts, hnb, blockRetOk, isRet] using ih k rp
      | bitcast r v t nm => simpa [reactInsts, hnb, blockRetOk, isRet] using ih k rp
      | load r t p nm => simpa [reactInsts, hnb, blockRetOk, isRet] using ih k rp
      | store v p => simpa [reactInsts, hnb, blockRetOk, isRet] using ih k rp
      | br d => simpa [reactInsts, hnb, blockRetOk, isRet] using ih k rp
      | switchI v d cs => simpa [reactInsts, hnb, blockRetOk, isRet] using ih k rp
      | intcast r v t => simpa [reactInsts, hnb, blockRetOk, isRet] using ih k rp
      | miscI r t ops => simpa [reactInsts, hnb, blockRetOk, isRet] using ih k rp

theorem reactInsts_countRet (fTy : Ty) (l : List Inst) :
    ∀ k rp, countRetIn (reactInsts fTy k rp l).1 = countRetIn l := by
  induction l with
  | nil => intro k rp; rfl
  | cons i rest ih =>
    intro k rp
    by_cases hn : isCallTo noretName i = true
    · simp [reactInsts, hn]
    · have hnb : isCallTo noretName i = false := by simpa using hn
      cases i with
      | ret rv =>
        by_cases hv : fTy = Ty.void
        · simp [reactInsts, hnb, hv, countRetIn, isRet, List.filter_append,
            noretCallI]
        · cases rp with
          | some k0 =>
            simp [reactInsts, hnb, hv, countRetIn, isRet, List.filter_append,
              noretCallI]
          | none =>
            simp [reactInsts, hnb, hv, countRetIn, isRet, List.filter_append,
              noretCallI]
      | call res rty c args =>
        simpa [reactInsts, hnb, countRetIn, isRet] using ih k rp
      | alloca r t nm => simpa [reactInsts, hnb, countRetIn, isRet] using ih k rp
      | bitcast r v t nm => simpa [reactInsts, hnb, countRetIn, isRet] using ih k rp
      | load r t p nm => simpa [reactInsts, hnb, countRetIn, isRet] using ih k rp
      | store v p => simpa [reactInsts, hnb, countRetIn, isRet] using ih k rp
      | br d => simpa [reactInsts, hnb, countRetIn, isRet] using ih k rp
      | switchI v d cs => simpa [reactInsts, hnb, countRetIn, isRet] using ih k rp
      | intcast r v t => simpa [reactInsts, hnb, countRetIn, isRet] using ih k rp
      | miscI r t ops => simpa [reactInsts, hnb, countRetIn, isRet] using ih k rp

theorem reactInsts_noret_first (fTy : Ty) (pre : List Inst)
    (hpre : ∀ i ∈ pre, reactHit i = false) (n : Inst)
    (hn : isCallTo noretName n = true) (post : List Inst) :
    ∀ k rp, reactInsts fTy k rp (pre ++ n :: post) = (pre ++ n :: post, k, rp) := by
  induction pre with
  | nil =>
    intro k rp
    simp [reactInsts, hn]
  | cons x rest ih =>
    intro k rp
    have hx := hpre x (List.mem_cons_self _ _)
    simp only [reactHit, Bool.or_eq_false_iff] at hx
    have hrec := ih (fun y hy => hpre y (List.mem_cons_of_mem _ hy)) k rp
    cases x with
    | ret rv => simp [isRet] at hx
    | call res rty c args =>
      simp only [List.cons_append, reactInsts, hx.1]
      simp [hrec]
    | alloca r t nm => simp only [List.cons_append, reactInsts, hx.1]; simp [hrec]
    | bitcast r v t nm => simp only [List.cons_append, reactInsts, hx.1]; simp [hrec]
    | load r t p nm => simp only [List.cons_append, reactInsts, hx.1]; simp [hrec]
    | store v p => simp only [List.cons_append, reactInsts, hx.1]; simp [hrec]
    | br d => simp only [List.cons_append, reactInsts, hx.1]; simp [hrec]
    | switchI v d cs => simp only [List.cons_append, reactInsts, hx.1]; simp [hrec]
    | intcast r v t => simp only [List.cons_append, reactInsts, hx.1]; simp [hrec]
    | miscI r t ops => simp only [List.cons_append, reactInsts, hx.1]; simp [hrec]

theorem reactInsts_ret_first (fTy : Ty) (pre : List Inst)
    (hpre : ∀ i ∈ pre, reactHit i = false) (rv : Option Val) (post : List Inst) :
    ∀ k rp,
      (fTy = Ty.void →
        reactInsts fTy k rp (pre ++ Inst.ret rv :: post)
          = (pre ++ [Inst.call (some k) Ty.i8ptr getParentHandleName [],
                     Inst.call none Ty.void activateTaskName [Val.reg k],
                     noretCallI, Inst.ret rv] ++ post, k + 1, rp)) ∧
      (fTy ≠ Ty.void → ∀ k0, rp = some k0 →
        reactInsts fTy k rp (pre ++ Inst.ret rv :: post)
          = (pre ++ [Inst.store (rv.getD (Val.undef fTy)) (Val.reg (k0+2)),
                     Inst.call (some k) Ty.i8ptr getParentHandleName [],
                     Inst.call none Ty.void activateTaskName [Val.reg k],
                     noretCallI, Inst.ret (some (Val.undef Ty.void))] ++ post,
             k + 1, some k0)) ∧
      (fTy ≠ Ty.void → rp = none →
        reactInsts fTy k rp (pre ++ Inst.ret rv :: post)
          = (pre ++ [Inst.store (rv.getD (Val.undef fTy)) (Val.reg (k+2)),
                     Inst.call (some (k+3)) Ty.i8ptr getParentHandleName [],
                     Inst.call none Ty.void activateTaskName [Val.reg (k+3)],
                     noretCallI, Inst.ret (some (Val.undef Ty.void))] ++ post,
             k + 4, some k)) := by
  induction pre with
  | nil =>
    intro k rp
    have hnr : isCallTo noretName (Inst.ret rv) = false := by simp [isCallTo]
    refine ⟨?_, ?_, ?_⟩
    · intro hv
      simp [reactInsts, hnr, hv]
    · intro hv k0 hrp
      subst hrp
      simp [reactInsts, hnr, hv]
    · intro hv hrp
      subst hrp
      simp [reactInsts, hnr, hv]
  | cons x rest ih =>
    intro k rp
    have hx := hpre x (List.mem_cons_self _ _)
    simp only [reactHit, Bool.or_eq_false_iff] at hx
    have hrec := ih (fun y hy => hpre y (List.mem_cons_of_mem _ hy)) k rp
    have hstep : reactInsts fTy k rp ((x :: rest) ++ Inst.ret rv :: post)
        = (x :: (reactInsts fTy k rp (rest ++ Inst.ret rv :: post)).1,
           (reactInsts fTy k rp (rest ++ Inst.ret rv :: post)).2.1,
           (reactInsts fTy k rp (rest ++ Inst.ret rv :: post)).2.2) := by
      cases x with
      | ret rv2 => simp [isRet] at hx
      | call res rty c args => simp [reactInsts, hx.1]
      | alloca r t nm => simp [reactInsts, hx.1]
      | bitcast r v t nm => simp [reactInsts, hx.1]
      | load r t p nm => simp [reactInsts, hx.1]
      | store v p => simp [reactInsts, hx.1]
      | br d => simp [reactInsts, hx.1]
      | switchI v d cs => simp [reactInsts, hx.1]
      | intcast r v t => simp [reactInsts, hx.1]
      | miscI r t ops => simp [reactInsts, hx.1]
    refine ⟨?_, ?_, ?_⟩
    · intro hv
      rw [hstep, hrec.1 hv]
      simp
    · intro hv k0 hrp
      rw [hstep, (hrec.2.1 hv k0 hrp)]
      simp
    · intro hv hrp
      rw [hstep, hrec.2.2 hv hrp]
      simp

theorem reactBlocks_mem (fTy : Ty) (bs : List BB) :
    ∀ k rp b', b' ∈ (reactBlocks fTy k rp bs).1 →
      ∃ k1 rp1 b, b ∈ bs ∧ b'.bname = b.bname ∧
        b'.insts = (reactInsts fTy k1 rp1 b.insts).1 := by
  induction bs with
  | nil =>
    intro k rp b' h
    simp only [reactBlocks] at h
    cases h
  | cons b rest ih =>
    intro k rp b' h
    simp only [reactBlocks] at h
    rcases List.mem_cons.1 h with h' | h'
    · exact ⟨k, rp, b, List.mem_cons_self _ _, by rw [h'], by rw [h']⟩
    · obtain ⟨k1, rp1, b2, hb2, hn, hi⟩ := ih _ _ b' h'
      exact ⟨k1, rp1, b2, List.mem_cons_of_mem _ hb2, hn, hi⟩

theorem reactBlocks_length (fTy : Ty) (bs : List BB) :
    ∀ k rp, (reactBlocks fTy k rp bs).1.length = bs.length := by
  induction bs with
  | nil => intro k rp; rfl
  | cons b rest ih =>
    intro k rp
    simp only [reactBlocks, List.length_cons]
    rw [ih]

theorem reactBlocks_countRet (fTy : Ty) (bs : List BB) :
    ∀ k rp, ((reactBlocks fTy k rp bs).1.map (fun b => countRetIn b.insts)).sum
      = (bs.map (fun b => countRetIn b.insts)).sum := by
  induction bs with
  | nil => intro k rp; rfl
  | cons b rest ih =>
    intro k rp
    simp only [reactBlocks, List.map_cons, List.sum_cons]
    rw [ih, reactInsts_countRet]

theorem entrySeq_nonhit (fTy : Ty) (k0 : Nat) :
    ∀ i ∈ reactEntrySeq fTy k0, reactHit i = false := by
  intro i hi
  simp only [reactEntrySeq, List.mem_cons, List.not_mem_nil, or_false] at hi
  rcases hi with h | h | h <;> subst h <;>
    simp [reactHit, isCallTo, isRet, getParentHandleName, noretName,
      getTaskStatePtrName]

theorem entrySeq_countRet (fTy : Ty) (k0 : Nat) :
    countRetIn (reactEntrySeq fTy k0) = 0 := by
  simp [reactEntrySeq, countRetIn, isRet]

/-- C7: after return reactivation every return of the function lies behind
a `noret` marker in its block; no return is ever deleted (the return count
is preserved); a block whose scan first meets a `noret` is left unchanged;
and a block whose scan first meets a return has the return immediately
preceded by `activateTask(getParentHandle())` and a `noret` marker, with
the return value first stored through the parent's task-state pointer when
the function returns non-void. -/
theorem c7_return_reactivation (f : Fn) :
    (∀ b' ∈ (reactFn f).blocks, blockRetOk b'.insts = true) ∧
    countRetFn (reactFn f) = countRetFn f ∧
    (∀ (k : Nat) (rp : Option Nat) (pre : List Inst),
      (∀ i ∈ pre, reactHit i = false) →
      ∀ (n : Inst), isCallTo noretName n = true → ∀ (post : List Inst),
        reactInsts f.retTy k rp (pre ++ n :: post) = (pre ++ n :: post, k, rp)) ∧
    (∀ (pre : List Inst), (∀ i ∈ pre, reactHit i = false) →
      ∀ (rv : Option Val) (post : List Inst) (k : Nat) (rp : Option Nat),
      (f.retTy = Ty.void →
        reactInsts f.retTy k rp (pre ++ Inst.ret rv :: post)
          = (pre ++ [Inst.call (some k) Ty.i8ptr getParentHandleName [],
                     Inst.call none Ty.void activateTaskName [Val.reg k],
                     noretCallI, Inst.ret rv] ++ post, k + 1, rp)) ∧
      (f.retTy ≠ Ty.void → ∀ k0, rp = some k0 →
        reactInsts f.retTy k rp (pre ++ Inst.ret rv :: post)
          = (pre ++ [Inst.store (rv.getD (Val.undef f.retTy)) (Val.reg (k0+2)),
                     Inst.call (some k) Ty.i8ptr getParentHandleName [],
                     Inst.call none Ty.void activateTaskName [Val.reg k],
                     noretCallI, Inst.ret (some (Val.undef Ty.void))] ++ post,
             k + 1, some k0)) ∧
      (f.retTy ≠ Ty.void → rp = none →
        reactInsts f.retTy k rp (pre ++ Inst.ret rv :: post)
          = (pre ++ [Inst.store (rv.getD (Val.undef f.retTy)) (Val.reg (k+2)),
                     Inst.call (some (k+3)) Ty.i8ptr getParentHandleName [],
                     Inst.call none Ty.void activateTaskName [Val.reg (k+3)],
                     noretCallI, Inst.ret (some (Val.undef Ty.void))] ++ post,
             k + 4, some k))) := by
  have hblocks : (reactFn f).blocks
      = reactAssemble f.retTy
          (reactBlocks f.retTy (fnMaxReg f + 1) none f.blocks).1
          (reactBlocks f.retTy (fnMaxReg f + 1) none f.blocks).2.2 := rfl
  refine ⟨?_, ?_, ?_, ?_⟩
  · intro b' hb'
    rw [hblocks] at hb'
    have hmem : ∀ b1 ∈ (reactBlocks f.retTy (fnMaxReg f + 1) none f.blocks).1,
        blockRetOk b1.insts = true := by
      intro b1 hb1
      obtain ⟨k1, rp1, b, _, _, hi⟩ :=
        reactBlocks_mem f.retTy f.blocks _ _ b1 hb1
      rw [hi]
      exact reactInsts_blockRetOk f.retTy b.insts k1 rp1
    revert hb'
    unfold reactAssemble
    cases hpp : (reactBlocks f.retTy (fnMaxReg f + 1) none f.blocks).2.2 with
    | none =>
      intro hb'
      exact hmem b' hb'
    | some k0 =>
      cases hp1 : (reactBlocks f.retTy (fnMaxReg f + 1) none f.blocks).1 with
      | nil => intro hb'; cases hb'
      | cons b0 rest =>
        intro hb'
        rcases List.mem_cons.1 hb' with h' | h'
        · subst h'
          show blockRetOk (reactEntrySeq f.retTy k0 ++ b0.insts) = true
          rw [blockRetOk_append_nonhit _ _ (entrySeq_nonhit f.retTy k0)]
          exact hmem b0 (by rw [hp1]; exact List.mem_cons_self _ _)
        · exact hmem b' (by rw [hp1]; exact List.mem_cons_of_mem _ h')
  · have hsum := reactBlocks_countRet f.retTy f.blocks (fnMaxReg f + 1) none
    have e1 : countRetFn (reactFn f)
        = ((reactFn f).blocks.map (fun b => countRetIn b.insts)).sum := rfl
    have e2 : countRetFn f = (f.blocks.map (fun b => countRetIn b.insts)).sum := rfl
    rw [e1, e2, hblocks, ← hsum]
    unfold reactAssemble
    cases hpp : (reactBlocks f.retTy (fnMaxReg f + 1) none f.blocks).2.2 with
    | none => rfl
    | some k0 =>
      cases hp1 : (reactBlocks f.retTy (fnMaxReg f + 1) none f.blocks).1 with
      | nil => rfl
      | cons b0 rest =>
        simp only [List.map_cons, List.sum_cons]
        rw [show countRetIn (reactEntrySeq f.retTy k0 ++ b0.insts)
            = countRetIn (reactEntrySeq f.retTy k0) + countRetIn b0.insts from by
          simp [countRetIn, List.filter_append]]
        rw [entrySeq_countRet]
        omega
  · intro k rp pre hpre n hn post
    exact reactInsts_noret_first f.retTy pre hpre n hn post k rp
  · intro pre hpre rv post k rp
    exact reactInsts_ret_first f.retTy pre hpre rv post k rp

/-! ## C6 — async tail-call optimization -/

/-- Modelled from the spec (claim C6's words): the tail rewrite applies
when the next instruction is a return, the return is void or the call's
return value is the operand of the return, and the return types of caller
and callee match.  (Here the next instruction is the return `ret rv`.) -/
def SpecTailCond (fTy : Ty) (res : Option Nat) (rty : Ty) (rv : Option Val) : Prop :=
  (rv = none ∨ ∃ r, res = some r ∧ rv = some (Val.reg r)) ∧ rty = fTy

theorem retMatches_iff (res : Option Nat) (rv : Option Val) :
    retMatches res rv = true ↔ ∃ r, res = some r ∧ rv = some (Val.reg r) := by
  cases res with
  | none => simp [retMatches]
  | some r =>
    cases rv with
    | none => simp [retMatches]
    | some v =>
      simp only [retMatches, decide_eq_true_eq]
      constructor
      · intro h
        exact ⟨r, rfl, by rw [h]⟩
      · rintro ⟨r2, hr2, hv⟩
        cases hr2
        exact Option.some.inj hv

theorem generalSite_head (used : Nat → Bool) (st : RwSt) (res : Option Nat)
    (rty : Ty) (c : String) (args : List Val) :
    ∃ tl, (generalSite used st res rty c args).1
      = Inst.call (some st.k) Ty.i8ptr getCoroutineName [] :: tl := by
  unfold generalSite
  by_cases hv : rty = Ty.void
  · rw [if_pos hv]
    exact ⟨_, rfl⟩
  · rw [if_neg hv]
    cases hra : st.retAl with
    | some p =>
      obtain ⟨ar, aty⟩ := p
      cases res with
      | some r =>
        simp only []
        by_cases hu : used r = true
        · rw [hu]
          simp only [if_true]
          exact ⟨_, rfl⟩
        · have hub : used r = false := by simpa using hu
          rw [hub]
          simp only [Bool.false_eq_true, if_false]
          exact ⟨_, rfl⟩
      | none => exact ⟨_, rfl⟩
    | none =>
      cases res with
      | some r =>
        simp only []
        by_cases hu : used r = true
        · rw [hu]
          simp only [if_true]
          exact ⟨_, rfl⟩
        · have hub : used r = false := by simpa using hu
          rw [hub]
          simp only [Bool.false_eq_true, if_false]
          exact ⟨_, rfl⟩
      | none => exact ⟨_, rfl⟩

/-- C6: inside an async function, for a call to an async callee `c` (not
`yield`, not classified non-returning) whose next instruction is a return,
the tail-call rewrite applies exactly under the spec's condition; in that
case the trailing coroutine-handle argument becomes a fresh
`getParentHandle()` result, the return's use of the call result is severed
(the kept return's operand becomes undef for a non-void callee), a `yield`
followed by a `noret` is emitted after the call, and no return-value buffer
is touched for this site (the builder state keeps its `retAl` and pending
entry-block insertions); otherwise the site gets the general rewrite, which
begins with a fresh `getCoroutine` call. -/
theorem c6_tail_call (a nr : List String) (fTy : Ty) (used : Nat → Bool)
    (st : RwSt) (res : Option Nat) (rty : Ty) (c : String) (args : List Val)
    (rv : Option Val) (rest' : List Inst)
    (hc : c ∈ a) (hcy : c ≠ yieldName) (hnr : c ∉ nr)
    (hwf : rv = none ↔ fTy = Ty.void) :
    ((decide (rty = fTy) && (decide (rty = Ty.void) || retMatches res rv)) = true
      ↔ SpecTailCond fTy res rty rv) ∧
    ((decide (rty = fTy) && (decide (rty = Ty.void) || retMatches res rv)) = true →
      rwInsts a nr fTy used st (Inst.call res rty c args :: Inst.ret rv :: rest')
        = ([Inst.call (some st.k) Ty.i8ptr getParentHandleName [],
            Inst.call res rty c (setLastArg args (Val.reg st.k)),
            yieldCallI, noretCallI] ++
           (rwInsts a nr fTy used { st with k := st.k + 1 }
             ((if rty = Ty.void then Inst.ret rv
               else Inst.ret (some (Val.undef rty))) :: rest')).1,
           (rwInsts a nr fTy used { st with k := st.k + 1 }
             ((if rty = Ty.void then Inst.ret rv
               else Inst.ret (some (Val.undef rty))) :: rest')).2) ∧
      ({ st with k := st.k + 1 } : RwSt).retAl = st.retAl ∧
      ({ st with k := st.k + 1 } : RwSt).entry = st.entry) ∧
    ((decide (rty = fTy) && (decide (rty = Ty.void) || retMatches res rv)) = false →
      ∃ tl st',
        rwInsts a nr fTy used st (Inst.call res rty c args :: Inst.ret rv :: rest')
          = (Inst.call (some st.k) Ty.i8ptr getCoroutineName [] :: tl, st')) ∧
    (∀ (j : Inst) (rest2 : List Inst), isRet j = false →
      (a.contains c && !(c = yieldName)) = true → nr.contains c = false →
      ∃ tl st',
        rwInsts a nr fTy used st (Inst.call res rty c args :: j :: rest2)
          = (Inst.call (some st.k) Ty.i8ptr getCoroutineName [] :: tl, st')) := by
  have hac : (a.contains c && !(c = yieldName)) = true := by
    have h1 : a.contains c = true := (contains_true_iff a c).mpr hc
    rw [h1]
    simp [hcy]
  have hnrc : nr.contains c = false := (contains_false_iff nr c).mpr hnr
  refine ⟨?_, ?_, ?_, ?_⟩
  · simp only [Bool.and_eq_true, Bool.or_eq_true, decide_eq_true_eq, retMatches_iff]
    constructor
    · rintro ⟨h1, h2 | h2⟩
      · exact ⟨Or.inl (hwf.mpr (h1 ▸ h2)), h1⟩
      · exact ⟨Or.inr h2, h1⟩
    · rintro ⟨h1 | h1, h2⟩
      · exact ⟨h2, Or.inl (h2.symm ▸ hwf.mp h1)⟩
      · exact ⟨h2, Or.inr h1⟩
  · intro hcond
    simp only [rwInsts, hac, if_true, hnrc, Bool.false_eq_true, if_false, hcond]
    exact ⟨trivial, trivial, trivial⟩
  · intro hcond
    have hstep : rwInsts a nr fTy used st
        (Inst.call res rty c args :: Inst.ret rv :: rest')
        = ((generalSite used st res rty c args).1 ++
           (rwInsts a nr fTy used (generalSite used st res rty c args).2
             (Inst.ret rv :: rest')).1,
           (rwInsts a nr fTy used (generalSite used st res rty c args).2
             (Inst.ret rv :: rest')).2) := by
      simp only [rwInsts, hac, if_true, hnrc, Bool.false_eq_true, if_false, hcond]
    obtain ⟨tl, htl⟩ := generalSite_head used st res rty c args
    rw [hstep, htl]
    exact ⟨_, _, rfl⟩
  · intro j rest2 hj _ _
    obtain ⟨tl, htl⟩ := generalSite_head used st res rty c args
    have hstep : rwInsts a nr fTy used st (Inst.call res rty c args :: j :: rest2)
        = ((generalSite used st res rty c args).1 ++
           (rwInsts a nr fTy used (generalSite used st res rty c args).2 (j :: rest2)).1,
           (rwInsts a nr fTy used (generalSite used st res rty c args).2 (j :: rest2)).2) := by
      cases j with
      | ret rv2 => simp [isRet] at hj
      | call r2 t2 c2 a2 => simp only [rwInsts, hac, if_true, hnrc,
          Bool.false_eq_true, if_false]
      | alloca r t nm => simp only [rwInsts, hac, if_true, hnrc,
          Bool.false_eq_true, if_false]
      | bitcast r v t nm => simp only [rwInsts, hac, if_true, hnrc,
          Bool.false_eq_true, if_false]
      | load r t p nm => simp only [rwInsts, hac, if_true, hnrc,
          Bool.false_eq_true, if_false]
      | store v p => simp only [rwInsts, hac, if_true, hnrc,
          Bool.false_eq_true, if_false]
      | br d => simp only [rwInsts, hac, if_true, hnrc,
          Bool.false_eq_true, if_false]
      | switchI v d cs => simp only [rwInsts, hac, if_true, hnrc,
          Bool.false_eq_true, if_false]
      | intcast r v t => simp only [rwInsts, hac, if_true, hnrc,
          Bool.false_eq_true, if_false]
      | miscI r t ops => simp only [rwInsts, hac, if_true, hnrc,
          Bool.false_eq_true, if_false]
    rw [hstep, htl]
    exact ⟨_, _, rfl⟩

/-! ## C3 — coroutine-frame installation -/

/-- Every `noret` call of the list is immediately followed by another
instruction (in the pipeline, always a return).  The instruction after a
`noret` is dead, and the post-split sweep drops it together with the
`noret`; this invariant is the shape in which §4.3-§4.6 emit `noret`. -/
def noretOkB : List Inst → Bool
  | [] => true
  | [i] => !(isCallTo noretName i)
  | i :: j :: rest => (!(isCallTo noretName i) || isRet j) && noretOkB (j :: rest)

theorem noretOkB_tail (i : Inst) (rest : List Inst)
    (h : noretOkB (i :: rest) = true) : noretOkB rest = true := by
  cases rest with
  | nil => rfl
  | cons j rs =>
    simp only [noretOkB, Bool.and_eq_true] at h
    exact h.2

theorem isCallTo_call (nm c : String) (res : Option Nat) (rty : Ty)
    (args : List Val) :
    isCallTo nm (Inst.call res rty c args) = decide (c = nm) := rfl

theorem isCallTo_ne (nm nm' : String) (i : Inst) (h : isCallTo nm i = true)
    (hne : nm ≠ nm') : isCallTo nm' i = false := by
  cases i <;> simp_all [isCallTo]

theorem ret_not_call (nm : String) (i : Inst) (h : isRet i = true) :
    isCallTo nm i = false := by
  cases i <;> simp_all [isRet, isCallTo]

theorem call_not_ret (nm : String) (i : Inst) (h : isCallTo nm i = true) :
    isRet i = false := by
  cases i <;> simp_all [isCallTo, isRet]

theorem countIn_zero_iff (nm : String) (l : List Inst) :
    countIn nm l = 0 ↔ ∀ i ∈ l, isCallTo nm i = false := by
  simp [countIn, List.length_eq_zero, List.filter_eq_nil_iff]

theorem noretOkB_of_no_noret : ∀ (l : List Inst),
    (∀ i ∈ l, isCallTo noretName i = false) → noretOkB l = true
  | [], _ => rfl
  | [i], h => by simp [noretOkB, h i (by simp)]
  | i :: j :: rest, h => by
    simp only [noretOkB, Bool.and_eq_true]
    refine ⟨by simp [h i (by simp)], ?_⟩
    exact noretOkB_of_no_noret (j :: rest) (fun x hx => h x (List.mem_cons_of_mem i hx))

/-- Sweeping (lines 792-810) preserves the per-block count of every callee
other than `getCoroutine` and `noret`, because the dropped instruction
after each `noret` is a return. -/
theorem sweepInsts_count (thr : Nat) (nm : String) (hgc : nm ≠ getCoroutineName)
    (hnr : nm ≠ noretName) : ∀ (l : List Inst), noretOkB l = true →
    countIn nm (sweepInsts thr l).1 = countIn nm l
  | [], _ => by simp [sweepInsts, countIn]
  | i :: rest, h => by
    by_cases hi : isCallTo getCoroutineName i = true
    · have hni : isCallTo nm i = false := isCallTo_ne getCoroutineName nm i hi (Ne.symm hgc)
      simp only [sweepInsts, hi, if_true]
      rw [sweepInsts_count thr nm hgc hnr rest (noretOkB_tail i rest h),
        countIn_cons, hni]
      simp
    · have hi' : isCallTo getCoroutineName i = false := by simpa using hi
      by_cases hn : isCallTo noretName i = true
      · cases rest with
        | nil => simp [noretOkB, hn] at h
        | cons j rest' =>
          have hj : isRet j = true := by
            simp only [noretOkB, Bool.and_eq_true, Bool.or_eq_true,
              Bool.not_eq_true'] at h
            rcases h.1 with h' | h'
            · rw [hn] at h'; cases h'
            · exact h'
          have hjC : isCallTo nm j = false := ret_not_call nm j hj
          have hiC : isCallTo nm i = false := isCallTo_ne noretName nm i hn (Ne.symm hnr)
          have hrr : noretOkB rest' = true :=
            noretOkB_tail j rest' (noretOkB_tail i (j :: rest') h)
          simp only [sweepInsts, hi', Bool.false_eq_true, if_false, hn, if_true,
            List.tail_cons]
          rw [countIn_cons, countIn_cons, countIn_cons,
            sweepInsts_count thr nm hgc hnr rest' hrr, hiC, hjC]
          simp [isCallTo]
      · have hn' : isCallTo noretName i = false := by simpa using hn
        simp only [sweepInsts, hi', hn', Bool.false_eq_true, if_false]
        rw [countIn_cons, countIn_cons,
          sweepInsts_count thr nm hgc hnr rest (noretOkB_tail i rest h)]

/-- The sweep leaves no `getCoroutine` and no `noret` call behind. -/
theorem sweepInsts_drop (thr : Nat) (nm : String)
    (hnm : nm = getCoroutineName ∨ nm = noretName) : ∀ (l : List Inst),
    countIn nm (sweepInsts thr l).1 = 0
  | [] => by simp [sweepInsts, countIn]
  | i :: rest => by
    by_cases hi : isCallTo getCoroutineName i = true
    · simp only [sweepInsts, hi, if_true]
      exact sweepInsts_drop thr nm hnm rest
    · have hi' : isCallTo getCoroutineName i = false := by simpa using hi
      by_cases hn : isCallTo noretName i = true
      · simp only [sweepInsts, hi', Bool.false_eq_true, if_false, hn, if_true]
        rw [countIn_cons, sweepInsts_drop thr nm hnm rest.tail]
        simp [isCallTo]
      · have hn' : isCallTo noretName i = false := by simpa using hn
        simp only [sweepInsts, hi', hn', Bool.false_eq_true, if_false]
        rw [countIn_cons, sweepInsts_drop thr nm hnm rest]
        rcases hnm with rfl | rfl <;> simp [hi', hn']
termination_by l => l.length
decreasing_by
  all_goals simp_wf
  all_goals omega

theorem countIn_reverse (nm : String) (l : List Inst) :
    countIn nm l.reverse = countIn nm l := by
  simp [countIn, List.filter_reverse]

/-- The contribution of one pre-split block to the post-split counts:
yields disappear, each yield contributes one `coro.suspend`, everything
else survives unchanged. -/
def splitCount (nm : String) (l : List Inst) : Nat :=
  if nm = yieldName then 0
  else if nm = coroSuspendName then countIn nm l + countIn yieldName l
  else countIn nm l

theorem splitCount_nil (nm : String) : splitCount nm [] = 0 := by
  unfold splitCount
  split_ifs <;> simp [countIn]

theorem splitCount_append (nm : String) (l1 l2 : List Inst) :
    splitCount nm (l1 ++ l2) = splitCount nm l1 + splitCount nm l2 := by
  unfold splitCount
  split_ifs <;> simp [countIn_append] <;> omega

/-- Per-block yield splitting (lines 778-791) realizes `splitCount`. -/
theorem splitYieldsGo_counts (nm : String) : ∀ (bn : String) (k : Nat)
    (acc l : List Inst),
    (((splitYieldsGo bn k acc l).1).map (fun b => countIn nm b.insts)).sum
      = countIn nm acc + splitCount nm l
  | bn, k, acc, [] => by
    simp [splitYieldsGo, countIn_reverse, splitCount_nil]
  | bn, k, acc, i :: rest => by
    by_cases hy : isCallTo yieldName i = true
    · simp only [splitYieldsGo, hy, if_true, List.map_cons, List.sum_cons]
      rw [splitYieldsGo_counts nm (wakeupName (k+1)) (k+2) [] rest]
      rw [countIn_append, countIn_reverse, countIn_cons, countIn_cons,
        isCallTo_call]
      simp only [countIn_nil]
      have hsw : isCallTo nm (Inst.switchI (Val.reg k) ("task.suspend")
          [(0, wakeupName (k+1)), (1, ("task.cleanup"))]) = false := rfl
      rw [hsw]
      by_cases h1 : nm = yieldName
      · subst h1
        have hd : (decide (coroSuspendName = yieldName)) = false := by decide
        rw [hd]
        simp only [splitCount, if_pos rfl]
        simp
      · by_cases h2 : nm = coroSuspendName
        · subst h2
          have hd : (decide (coroSuspendName = coroSuspendName)) = true := by decide
          have hyi : isCallTo coroSuspendName i = false :=
            isCallTo_ne yieldName coroSuspendName i hy (by decide)
          simp only [splitCount, if_neg h1, if_pos rfl, hd, countIn_cons, hyi, hy]
          simp [countIn_nil]
          omega
        · have hd : (decide (coroSuspendName = nm)) = false := by simp [Ne.symm h2]
          have hyi : isCallTo nm i = false := isCallTo_ne yieldName nm i hy (Ne.symm h1)
          simp only [splitCount, if_neg h1, if_neg h2, hd, countIn_cons, hyi]
          simp [countIn_nil]
    · have hy' : isCallTo yieldName i = false := by simpa using hy
      simp only [splitYieldsGo, hy', Bool.false_eq_true, if_false]
      rw [splitYieldsGo_counts nm bn k (i :: acc) rest, countIn_cons]
      by_cases h1 : nm = yieldName
      · subst h1
        rw [hy']
        simp only [splitCount, if_pos rfl]
        simp
      · by_cases h2 : nm = coroSuspendName
        · subst h2
          simp only [splitCount, if_neg h1, if_pos rfl, countIn_cons, hy']
          try simp
          omega
        · simp only [splitCount, if_neg h1, if_neg h2, countIn_cons]
          try simp
          omega

theorem noretOkB_of_append : ∀ (xs l : List Inst),
    noretOkB (xs ++ l) = true → noretOkB l = true
  | [], _, h => h
  | x :: xs, l, h => noretOkB_of_append xs l (noretOkB_tail x (xs ++ l) h)

/-- Replacing the suffix `i :: l` (whose head is not a return) by two
non-`noret` instructions keeps the invariant. -/
theorem noretOkB_snoc2 : ∀ (xs : List Inst) (i a b : Inst) (l : List Inst),
    noretOkB (xs ++ i :: l) = true → isRet i = false →
    isCallTo noretName a = false → isCallTo noretName b = false →
    noretOkB (xs ++ [a, b]) = true
  | [], i, a, b, l, _, _, ha, hb => by simp [noretOkB, ha, hb]
  | [x], i, a, b, l, h, hi, ha, hb => by
    have hx : isCallTo noretName x = false := by
      simp only [List.cons_append, List.nil_append, noretOkB, Bool.and_eq_true,
        Bool.or_eq_true, Bool.not_eq_true'] at h
      rcases h.1 with h' | h'
      · exact h'
      · rw [hi] at h'; cases h'
    simp [noretOkB, hx, ha, hb]
  | x :: y :: xs, i, a, b, l, h, hi, ha, hb => by
    simp only [List.cons_append, noretOkB, Bool.and_eq_true] at h ⊢
    exact ⟨h.1, noretOkB_snoc2 (y :: xs) i a b l h.2 hi ha hb⟩

/-- Prepending instructions that are not `noret` calls keeps the
invariant. -/
theorem noretOkB_append_nonoret : ∀ (xs l : List Inst),
    (∀ i ∈ xs, isCallTo noretName i = false) → noretOkB l = true →
    noretOkB (xs ++ l) = true
  | [], _, _, hl => hl
  | [x], l, hx, hl => by
    cases l with
    | nil => simp [noretOkB, hx x (by simp)]
    | cons j r =>
      simp only [List.cons_append, List.nil_append, noretOkB, Bool.and_eq_true]
      exact ⟨by simp [hx x (by simp)], hl⟩
  | x :: y :: xs, l, hx, hl => by
    have ih := noretOkB_append_nonoret (y :: xs) l
      (fun i hi => hx i (List.mem_cons_of_mem x hi)) hl
    simp only [List.cons_append, noretOkB, Bool.and_eq_true] at ih ⊢
    exact ⟨by simp [hx x (by simp)], ih⟩

/-- Splitting keeps the invariant in every produced block. -/
theorem splitYieldsGo_noretOk : ∀ (bn : String) (k : Nat) (acc l : List Inst),
    noretOkB (acc.reverse ++ l) = true →
    ∀ b ∈ (splitYieldsGo bn k acc l).1, noretOkB b.insts = true
  | bn, k, acc, [], h, b, hb => by
    simp only [splitYieldsGo, List.mem_singleton] at hb
    subst hb
    simpa using h
  | bn, k, acc, i :: rest, h, b, hb => by
    by_cases hy : isCallTo yieldName i = true
    · simp only [splitYieldsGo, hy, if_true, List.mem_cons] at hb
      rcases hb with hb | hb
      · subst hb
        have hsC : isCallTo noretName (Inst.call (some k) Ty.i8 coroSuspendName
            [Val.nullv Ty.token, Val.cint Ty.i1 0]) = false := by
          rw [isCallTo_call]; decide
        have hswC : isCallTo noretName (Inst.switchI (Val.reg k) ("task.suspend")
            [(0, wakeupName (k+1)), (1, ("task.cleanup"))]) = false := rfl
        exact noretOkB_snoc2 acc.reverse i _ _ rest h (call_not_ret yieldName i hy)
          hsC hswC
      · refine splitYieldsGo_noretOk (wakeupName (k+1)) (k+2) [] rest ?_ b hb
        simpa using noretOkB_tail i rest (noretOkB_of_append acc.reverse (i :: rest) h)
    · have hy' : isCallTo yieldName i = false := by simpa using hy
      simp only [splitYieldsGo, hy', Bool.false_eq_true, if_false] at hb
      refine splitYieldsGo_noretOk bn k (i :: acc) rest ?_ b hb
      simpa using h

/-- The per-function split fold of `installFn`, counted. -/
theorem splitFold_counts (nm : String) : ∀ (bs : List BB) (ac : List BB × Nat),
    (((bs.foldl (fun (acc : List BB × Nat) b =>
        let p := splitYieldsGo b.bname acc.2 [] b.insts
        (acc.1 ++ p.1, p.2)) ac).1).map (fun b => countIn nm b.insts)).sum
      = (ac.1.map (fun b => countIn nm b.insts)).sum
        + (bs.map (fun b => splitCount nm b.insts)).sum
  | [], ac => by simp
  | c :: bs, ac => by
    rw [List.foldl_cons, splitFold_counts nm bs]
    simp only [List.map_append, List.sum_append, List.map_cons, List.sum_cons]
    rw [splitYieldsGo_counts nm c.bname ac.2 [] c.insts]
    simp [countIn_nil]
    omega

theorem splitFold_noretOk : ∀ (bs : List BB) (ac : List BB × Nat),
    (∀ b ∈ ac.1, noretOkB b.insts = true) →
    (∀ b ∈ bs, noretOkB b.insts = true) →
    ∀ b ∈ (bs.foldl (fun (acc : List BB × Nat) b =>
        let p := splitYieldsGo b.bname acc.2 [] b.insts
        (acc.1 ++ p.1, p.2)) ac).1, noretOkB b.insts = true
  | [], ac, hac, _, b, hb => hac b hb
  | c :: bs, ac, hac, hbs, b, hb => by
    rw [List.foldl_cons] at hb
    refine splitFold_noretOk bs _ ?_
      (fun b' hb' => hbs b' (List.mem_cons_of_mem _ hb')) b hb
    intro b' hb'
    simp only [List.mem_append] at hb'
    rcases hb' with h' | h'
    · exact hac b' h'
    · exact splitYieldsGo_noretOk c.bname ac.2 [] c.insts
        (by simpa using hbs c (List.mem_cons_self c bs)) b' h'

/-- The entry prelude contains calls only to `coro.id`, `coro.size`,
`alloc`, `trackPointer` and `coro.begin`. -/
theorem installPrelude_count_zero (cfg : Cfg) (k : Nat) (nm : String)
    (h1 : coroIdName ≠ nm) (h2 : coroSizeName ≠ nm) (h3 : allocName ≠ nm)
    (h4 : trackPointerName ≠ nm) (h5 : coroBeginName ≠ nm) :
    countIn nm (installPrelude cfg k).1 = 0 := by
  simp only [installPrelude, sizeCastInsts]
  split_ifs <;>
    simp [countIn_cons, countIn_append, countIn_nil, countIn, isCallTo_call,
      isCallTo, h1, h2, h3, h4, h5]

theorem installPrelude_count_id (cfg : Cfg) (k : Nat) :
    countIn coroIdName (installPrelude cfg k).1 = 1 := by
  simp only [installPrelude, sizeCastInsts]
  split_ifs <;>
    simp [countIn_cons, countIn_append, countIn_nil, countIn, isCallTo_call,
      isCallTo, coroIdName, coroSizeName, allocName, trackPointerName,
      coroBeginName]

theorem installPrelude_count_begin (cfg : Cfg) (k : Nat) :
    countIn coroBeginName (installPrelude cfg k).1 = 1 := by
  simp only [installPrelude, sizeCastInsts]
  split_ifs <;>
    simp [countIn_cons, countIn_append, countIn_nil, countIn, isCallTo_call,
      isCallTo, coroIdName, coroSizeName, allocName, trackPointerName,
      coroBeginName]

theorem cleanupBB_count (nm : String) (idr thr memr : Nat) :
    countIn nm (cleanupBB idr thr memr).insts
      = (if coroFreeName = nm then 1 else 0)
        + (if freeName = nm then 1 else 0) := by
  simp only [cleanupBB, countIn_cons, countIn_nil, isCallTo_call, isCallTo]
  simp

theorem suspendBB_count (nm : String) (fTy : Ty) (thr ur : Nat) :
    countIn nm (suspendBB fTy thr ur).insts
      = (if coroEndName = nm then 1 else 0) := by
  have hr : isCallTo nm (retInstOf fTy) = false := by
    unfold retInstOf
    split_ifs <;> rfl
  simp only [suspendBB, countIn_cons, countIn_nil, isCallTo_call, hr]
  simp

theorem cleanupBB_noretOk (idr thr memr : Nat) :
    noretOkB (cleanupBB idr thr memr).insts = true := by
  simp [cleanupBB, noretOkB, isCallTo_call, isCallTo, coroFreeName, freeName,
    noretName]

theorem suspendBB_noretOk (fTy : Ty) (thr ur : Nat) :
    noretOkB (suspendBB fTy thr ur).insts = true := by
  have hr : isCallTo noretName (retInstOf fTy) = false := by
    unfold retInstOf
    split_ifs <;> rfl
  simp only [noretName] at hr
  simp [suspendBB, noretOkB, isCallTo_call, coroEndName, noretName, hr]

theorem sum_map_addL (f1 f2 : BB → Nat) : ∀ (l : List BB),
    (l.map (fun b => f1 b + f2 b)).sum = (l.map f1).sum + (l.map f2).sum
  | [] => rfl
  | b :: l => by
    simp only [List.map_cons, List.sum_cons, sum_map_addL f1 f2 l]
    omega

/-- Counting through the sweep-and-substitute tail of `installFn`. -/
theorem countFn_swept (nm : String) (g : Fn) (thr : Nat) (S : List (Nat × Val))
    (bs : List BB) (hb : ∀ b ∈ bs, noretOkB b.insts = true)
    (hgc : nm ≠ getCoroutineName) (hnr : nm ≠ noretName) :
    countFn nm (substAllFn S
      { g with blocks := ((bs.map (fun b => (b.bname, sweepInsts thr b.insts))).map
          (fun pr => (⟨pr.1, pr.2.1⟩ : BB))) })
      = (bs.map (fun b => countIn nm b.insts)).sum := by
  rw [countFn_substAllFn, countFn_mk]
  rw [List.map_map, List.map_map]
  refine congrArg List.sum (List.map_congr_left ?_)
  intro b hbm
  show countIn nm (sweepInsts thr b.insts).1 = countIn nm b.insts
  exact sweepInsts_count thr nm hgc hnr b.insts (hb b hbm)

/-- The count of any callee other than `getCoroutine`/`noret` after frame
installation on a function that still has a yield: the prelude's
contribution, the split contribution of every original block, and the
cleanup and suspend blocks. -/
theorem installFn_pos_count (cfg : Cfg) (g : Fn) (nm : String)
    (h0 : ¬ countFn yieldName g = 0)
    (hnoret : ∀ b ∈ g.blocks, noretOkB b.insts = true)
    (hgc : nm ≠ getCoroutineName) (hnr : nm ≠ noretName) :
    countFn nm (installFn cfg g)
      = splitCount nm (installPrelude cfg (fnMaxReg g + 1)).1
        + (g.blocks.map (fun b => splitCount nm b.insts)).sum
        + ((if coroFreeName = nm then 1 else 0) + (if freeName = nm then 1 else 0)
          + (if coroEndName = nm then 1 else 0)) := by
  cases hgb : g.blocks with
  | nil =>
    exfalso
    apply h0
    rw [countFn_mk, hgb]
    rfl
  | cons b0 rst =>
    have hpre0 : ∀ i ∈ (installPrelude cfg (fnMaxReg g + 1)).1,
        isCallTo noretName i = false :=
      (countIn_zero_iff _ _).1 (installPrelude_count_zero cfg _ noretName
        (by decide) (by decide) (by decide) (by decide) (by decide))
    unfold installFn
    rw [if_neg h0]
    simp only [hgb]
    refine (countFn_swept nm g _ _ _ ?_ hgc hnr).trans ?_
    · intro b hbm
      simp only [List.mem_append, List.mem_cons, List.not_mem_nil, or_false] at hbm
      rcases hbm with hbm | hbm | hbm
      · refine splitFold_noretOk _ _ (by intro x hx; simp at hx) ?_ b hbm
        intro b' hb'
        rcases List.mem_cons.1 hb' with h' | h'
        · subst h'
          show noretOkB ((installPrelude cfg (fnMaxReg g + 1)).1 ++ b0.insts) = true
          exact noretOkB_append_nonoret _ _ hpre0
            (hnoret b0 (by rw [hgb]; exact List.mem_cons_self _ _))
        · exact hnoret b' (by rw [hgb]; exact List.mem_cons_of_mem _ h')
      · subst hbm
        exact cleanupBB_noretOk _ _ _
      · subst hbm
        exact suspendBB_noretOk _ _ _
    · rw [List.map_append, List.sum_append, splitFold_counts]
      simp only [List.map_nil, List.sum_nil, List.map_cons, List.sum_cons,
        splitCount_append, cleanupBB_count, suspendBB_count]
      simp
      omega

/-- The per-block effect of the zero-yield `getCoroutine` replacement on
call counts. -/
def rgczCount (nm : String) (l : List Inst) : Nat :=
  if nm = getCoroutineName then 0
  else if nm = getParentHandleName then countIn nm l + countIn getCoroutineName l
  else countIn nm l

theorem replaceGetCoroutineZero_count (nm : String) : ∀ (k : Nat) (l : List Inst),
    countIn nm (replaceGetCoroutineZero k l).1 = rgczCount nm l
  | _, [] => by
    simp only [replaceGetCoroutineZero]
    unfold rgczCount
    split_ifs <;> simp [countIn]
  | k, i :: rest => by
    by_cases hi : isCallTo getCoroutineName i = true
    · simp only [replaceGetCoroutineZero, hi, if_true]
      rw [countIn_cons, replaceGetCoroutineZero_count nm (k+1) rest, isCallTo_call]
      by_cases h1 : nm = getCoroutineName
      · subst h1
        have hd : (decide (getParentHandleName = getCoroutineName)) = false := by
          decide
        rw [hd]
        simp only [rgczCount, if_pos rfl]
        simp
      · by_cases h2 : nm = getParentHandleName
        · subst h2
          have hd : (decide (getParentHandleName = getParentHandleName)) = true := by
            decide
          have hgi : isCallTo getParentHandleName i = false :=
            isCallTo_ne getCoroutineName getParentHandleName i hi (by decide)
          simp only [rgczCount, if_neg h1, if_pos rfl, hd, countIn_cons, hgi, hi]
          simp
          omega
        · have hd : (decide (getParentHandleName = nm)) = false := by
            simp [Ne.symm h2]
          have hni : isCallTo nm i = false :=
            isCallTo_ne getCoroutineName nm i hi (Ne.symm h1)
          simp only [rgczCount, if_neg h1, if_neg h2, hd, countIn_cons, hni]
    · have hi' : isCallTo getCoroutineName i = false := by simpa using hi
      simp only [replaceGetCoroutineZero, hi', Bool.false_eq_true, if_false]
      rw [countIn_cons, replaceGetCoroutineZero_count nm k rest]
      by_cases h1 : nm = getCoroutineName
      · subst h1
        rw [hi']
        simp only [rgczCount, if_pos rfl]
        simp
      · by_cases h2 : nm = getParentHandleName
        · subst h2
          simp only [rgczCount, if_neg h1, if_pos rfl, countIn_cons, hi']
          try simp
          omega
        · simp only [rgczCount, if_neg h1, if_neg h2, countIn_cons]

theorem rgczFold_counts (nm : String) : ∀ (bs : List BB)
    (ac : List BB × Nat × List (Nat × Val)),
    (((bs.foldl (fun (acc : List BB × Nat × List (Nat × Val)) b =>
        let p := replaceGetCoroutineZero acc.2.1 b.insts
        (acc.1 ++ [⟨b.bname, p.1⟩], p.2.1, acc.2.2 ++ p.2.2)) ac).1).map
      (fun b => countIn nm b.insts)).sum
      = (ac.1.map (fun b => countIn nm b.insts)).sum
        + (bs.map (fun b => rgczCount nm b.insts)).sum
  | [], ac => by simp
  | c :: bs, ac => by
    rw [List.foldl_cons, rgczFold_counts nm bs]
    simp only [List.map_append, List.sum_append, List.map_cons, List.sum_cons]
    rw [replaceGetCoroutineZero_count]
    simp
    omega

theorem rgczFold_len : ∀ (bs : List BB) (ac : List BB × Nat × List (Nat × Val)),
    ((bs.foldl (fun (acc : List BB × Nat × List (Nat × Val)) b =>
        let p := replaceGetCoroutineZero acc.2.1 b.insts
        (acc.1 ++ [⟨b.bname, p.1⟩], p.2.1, acc.2.2 ++ p.2.2)) ac).1).length
      = ac.1.length + bs.length
  | [], ac => by simp
  | c :: bs, ac => by
    rw [List.foldl_cons, rgczFold_len bs]
    simp
    omega

theorem installFn_zero_count (cfg : Cfg) (g : Fn) (nm : String)
    (h0 : countFn yieldName g = 0) :
    countFn nm (installFn cfg g)
      = (g.blocks.map (fun b => rgczCount nm b.insts)).sum := by
  unfold installFn
  rw [if_pos h0, countFn_substAllFn, countFn_mk]
  simpa using rgczFold_counts nm g.blocks ([], fnMaxReg g + 1, [])

theorem installFn_zero_len (cfg : Cfg) (g : Fn) (h0 : countFn yieldName g = 0) :
    (installFn cfg g).blocks.length = g.blocks.length := by
  unfold installFn
  rw [if_pos h0, substAllFn_blocks]
  rw [List.length_map]
  simpa using rgczFold_len g.blocks ([], fnMaxReg g + 1, [])

/-- §4.6 inserts only `getParentHandle`, `activateTask`, `noret`, stores
and returns, so every other call count is preserved per block. -/
theorem reactInsts_count (fTy : Ty) (nm : String) (h1 : nm ≠ getParentHandleName)
    (h2 : nm ≠ activateTaskName) (h3 : nm ≠ noretName) (l : List Inst) :
    ∀ k rp, countIn nm (reactInsts fTy k rp l).1 = countIn nm l := by
  induction l with
  | nil => intro k rp; rfl
  | cons i rest ih =>
    intro k rp
    by_cases hn : isCallTo noretName i = true
    · simp [reactInsts, hn]
    · have hnb : isCallTo noretName i = false := by simpa using hn
      have e1 : (decide (getParentHandleName = nm)) = false := by simp [Ne.symm h1]
      have e2 : (decide (activateTaskName = nm)) = false := by simp [Ne.symm h2]
      have e3 : (decide (noretName = nm)) = false := by simp [Ne.symm h3]
      cases i with
      | ret rv =>
        by_cases hv : fTy = Ty.void
        · simp [reactInsts, hnb, hv, countIn_cons, countIn_append, countIn_nil,
            isCallTo_call, noretCallI, e1, e2, e3, isCallTo]
        · cases rp with
          | some k0 =>
            simp [reactInsts, hnb, hv, countIn_cons, countIn_append, countIn_nil,
              isCallTo_call, noretCallI, e1, e2, e3, isCallTo]
          | none =>
            simp [reactInsts, hnb, hv, countIn_cons, countIn_append, countIn_nil,
              isCallTo_call, noretCallI, e1, e2, e3, isCallTo]
      | call res rty c args => simpa [reactInsts, hnb, countIn_cons] using ih k rp
      | alloca r t s => simpa [reactInsts, hnb, countIn_cons] using ih k rp
      | bitcast r v t s => simpa [reactInsts, hnb, countIn_cons] using ih k rp
      | load r t p s => simpa [reactInsts, hnb, countIn_cons] using ih k rp
      | store v p => simpa [reactInsts, hnb, countIn_cons] using ih k rp
      | br d => simpa [reactInsts, hnb, countIn_cons] using ih k rp
      | switchI v d cs => simpa [reactInsts, hnb, countIn_cons] using ih k rp
      | intcast r v t => simpa [reactInsts, hnb, countIn_cons] using ih k rp
      | miscI r t ops => simpa [reactInsts, hnb, countIn_cons] using ih k rp

theorem reactBlocks_count (fTy : Ty) (nm : String) (h1 : nm ≠ getParentHandleName)
    (h2 : nm ≠ activateTaskName) (h3 : nm ≠ noretName) :
    ∀ (bs : List BB) (k : Nat) (rp : Option Nat),
      ((reactBlocks fTy k rp bs).1.map (fun b => countIn nm b.insts)).sum
        = (bs.map (fun b => countIn nm b.insts)).sum
  | [], _, _ => rfl
  | b :: bs, k, rp => by
    simp only [reactBlocks, List.map_cons, List.sum_cons]
    rw [reactBlocks_count fTy nm h1 h2 h3 bs, reactInsts_count fTy nm h1 h2 h3 b.insts]

/-- §4.6 preserves the whole-function count of every callee other than the
four it inserts. -/
theorem reactFn_count (nm : String) (h1 : nm ≠ getParentHandleName)
    (h2 : nm ≠ activateTaskName) (h3 : nm ≠ noretName)
    (h4 : nm ≠ getTaskStatePtrName) (f : Fn) :
    countFn nm (reactFn f) = countFn nm f := by
  have hblocks : (reactFn f).blocks
      = reactAssemble f.retTy
          (reactBlocks f.retTy (fnMaxReg f + 1) none f.blocks).1
          (reactBlocks f.retTy (fnMaxReg f + 1) none f.blocks).2.2 := rfl
  have hsum := reactBlocks_count f.retTy nm h1 h2 h3 f.blocks (fnMaxReg f + 1) none
  rw [countFn_mk, countFn_mk, hblocks, ← hsum]
  unfold reactAssemble
  cases hpp : (reactBlocks f.retTy (fnMaxReg f + 1) none f.blocks).2.2 with
  | none => rfl
  | some k0 =>
    cases hp1 : (reactBlocks f.retTy (fnMaxReg f + 1) none f.blocks).1 with
    | nil => rfl
    | cons b0 rest =>
      simp only [List.map_cons, List.sum_cons]
      rw [show countIn nm (reactEntrySeq f.retTy k0 ++ b0.insts)
          = countIn nm (reactEntrySeq f.retTy k0) + countIn nm b0.insts from
        countIn_append nm _ _]
      rw [show countIn nm (reactEntrySeq f.retTy k0) = 0 from by
        simp [reactEntrySeq, countIn_cons, countIn_nil, isCallTo_call,
          Ne.symm h1, Ne.symm h4, isCallTo]]
      omega

theorem sum_splitCount_generic (nm : String) (g : Fn) (hy : nm ≠ yieldName)
    (hs : nm ≠ coroSuspendName) :
    (g.blocks.map (fun b => splitCount nm b.insts)).sum = countFn nm g := by
  rw [countFn_mk]
  refine congrArg List.sum (List.map_congr_left ?_)
  intro b _
  simp [splitCount, hy, hs]

theorem sum_splitCount_susp (g : Fn) :
    (g.blocks.map (fun b => splitCount coroSuspendName b.insts)).sum
      = countFn coroSuspendName g + countFn yieldName g := by
  rw [countFn_mk, countFn_mk, ← sum_map_addL]
  refine congrArg List.sum (List.map_congr_left ?_)
  intro b _
  simp only [splitCount]
  rw [if_neg (by decide : ¬(coroSuspendName = yieldName))]
  simp

theorem sum_rgcz_generic (nm : String) (g : Fn) (h1 : nm ≠ getCoroutineName)
    (h2 : nm ≠ getParentHandleName) :
    (g.blocks.map (fun b => rgczCount nm b.insts)).sum = countFn nm g := by
  rw [countFn_mk]
  refine congrArg List.sum (List.map_congr_left ?_)
  intro b _
  simp [rgczCount, h1, h2]

theorem sum_rgcz_gph (g : Fn) :
    (g.blocks.map (fun b => rgczCount getParentHandleName b.insts)).sum
      = countFn getParentHandleName g + countFn getCoroutineName g := by
  rw [countFn_mk, countFn_mk, ← sum_map_addL]
  refine congrArg List.sum (List.map_congr_left ?_)
  intro b _
  simp only [rgczCount]
  rw [if_neg (by decide : ¬(getParentHandleName = getCoroutineName))]
  simp

/-- C3: on an async function that still contains a yield at
frame-installation time (and, as everywhere in the pipeline, carries no
pre-existing `llvm.coro.*` calls and has every `noret` followed by its
return), the installer creates exactly one `coro.id`, one `coro.begin`,
one `coro.end` and one `coro.free` call, and exactly one `coro.suspend`
per remaining yield; a function with zero remaining yields gets no new
blocks (no frame, cleanup or suspend block) and each of its `getCoroutine`
calls becomes a `getParentHandle()` call; the yield count at installation
time is the count left by tail-yield elimination, since return
reactivation never adds or removes yields. -/
theorem c3_frame_installation (cfg : Cfg) (g : Fn)
    (hnoret : ∀ b ∈ g.blocks, noretOkB b.insts = true)
    (hid : countFn coroIdName g = 0) (hbeg : countFn coroBeginName g = 0)
    (hend : countFn coroEndName g = 0) (hfree : countFn coroFreeName g = 0)
    (hsus : countFn coroSuspendName g = 0) :
    (countFn yieldName g ≠ 0 →
      countFn coroIdName (installFn cfg g) = 1 ∧
      countFn coroBeginName (installFn cfg g) = 1 ∧
      countFn coroEndName (installFn cfg g) = 1 ∧
      countFn coroFreeName (installFn cfg g) = 1 ∧
      countFn coroSuspendName (installFn cfg g) = countFn yieldName g) ∧
    (countFn yieldName g = 0 →
      (installFn cfg g).blocks.length = g.blocks.length ∧
      countFn getCoroutineName (installFn cfg g) = 0 ∧
      countFn getParentHandleName (installFn cfg g)
        = countFn getParentHandleName g + countFn getCoroutineName g ∧
      countFn coroIdName (installFn cfg g) = 0 ∧
      countFn coroBeginName (installFn cfg g) = 0 ∧
      countFn coroEndName (installFn cfg g) = 0 ∧
      countFn coroFreeName (installFn cfg g) = 0 ∧
      countFn coroSuspendName (installFn cfg g) = 0) ∧
    (∀ f0 : Fn, countFn yieldName (reactFn f0) = countFn yieldName f0) := by
  refine ⟨?_, ?_, ?_⟩
  · intro hY
    refine ⟨?_, ?_, ?_, ?_, ?_⟩
    · rw [installFn_pos_count cfg g coroIdName hY hnoret (by decide) (by decide),
        sum_splitCount_generic coroIdName g (by decide) (by decide), hid]
      simp only [splitCount]
      rw [if_neg (by decide : ¬(coroIdName = yieldName)),
        if_neg (by decide : ¬(coroIdName = coroSuspendName)),
        installPrelude_count_id,
        if_neg (by decide : ¬(coroFreeName = coroIdName)),
        if_neg (by decide : ¬(freeName = coroIdName)),
        if_neg (by decide : ¬(coroEndName = coroIdName))]
    · rw [installFn_pos_count cfg g coroBeginName hY hnoret (by decide) (by decide),
        sum_splitCount_generic coroBeginName g (by decide) (by decide), hbeg]
      simp only [splitCount]
      rw [if_neg (by decide : ¬(coroBeginName = yieldName)),
        if_neg (by decide : ¬(coroBeginName = coroSuspendName)),
        installPrelude_count_begin,
        if_neg (by decide : ¬(coroFreeName = coroBeginName)),
        if_neg (by decide : ¬(freeName = coroBeginName)),
        if_neg (by decide : ¬(coroEndName = coroBeginName))]
    · rw [installFn_pos_count cfg g coroEndName hY hnoret (by decide) (by decide),
        sum_splitCount_generic coroEndName g (by decide) (by decide), hend]
      simp only [splitCount]
      rw [if_neg (by decide : ¬(coroEndName = yieldName)),
        if_neg (by decide : ¬(coroEndName = coroSuspendName)),
        installPrelude_count_zero cfg _ coroEndName (by decide) (by decide)
          (by decide) (by decide) (by decide),
        if_neg (by decide : ¬(coroFreeName = coroEndName)),
        if_neg (by decide : ¬(freeName = coroEndName))]
      simp
    · rw [installFn_pos_count cfg g coroFreeName hY hnoret (by decide) (by decide),
        sum_splitCount_generic coroFreeName g (by decide) (by decide), hfree]
      simp only [splitCount]
      rw [if_neg (by decide : ¬(coroFreeName = yieldName)),
        if_neg (by decide : ¬(coroFreeName = coroSuspendName)),
        installPrelude_count_zero cfg _ coroFreeName (by decide) (by decide)
          (by decide) (by decide) (by decide),
        if_neg (by decide : ¬(freeName = coroFreeName)),
        if_neg (by decide : ¬(coroEndName = coroFreeName))]
      simp
    · rw [installFn_pos_count cfg g coroSuspendName hY hnoret (by decide)
          (by decide),
        sum_splitCount_susp g, hsus]
      simp only [splitCount]
      rw [if_neg (by decide : ¬(coroSuspendName = yieldName)),
        installPrelude_count_zero cfg _ coroSuspendName (by decide) (by decide)
          (by decide) (by decide) (by decide),
        installPrelude_count_zero cfg _ yieldName (by decide) (by decide)
          (by decide) (by decide) (by decide),
        if_neg (by decide : ¬(coroFreeName = coroSuspendName)),
        if_neg (by decide : ¬(freeName = coroSuspendName)),
        if_neg (by decide : ¬(coroEndName = coroSuspendName))]
      simp
  · intro hZ
    refine ⟨installFn_zero_len cfg g hZ, ?_, ?_, ?_, ?_, ?_, ?_, ?_⟩
    · rw [installFn_zero_count cfg g getCoroutineName hZ]
      apply List.sum_eq_zero
      intro x hx
      simp only [List.mem_map] at hx
      obtain ⟨b, _, hb⟩ := hx
      rw [← hb]
      simp [rgczCount]
    · rw [installFn_zero_count cfg g getParentHandleName hZ, sum_rgcz_gph]
    · rw [installFn_zero_count cfg g coroIdName hZ,
        sum_rgcz_generic coroIdName g (by decide) (by decide), hid]
    · rw [installFn_zero_count cfg g coroBeginName hZ,
        sum_rgcz_generic coroBeginName g (by decide) (by decide), hbeg]
    · rw [installFn_zero_count cfg g coroEndName hZ,
        sum_rgcz_generic coroEndName g (by decide) (by decide), hend]
    · rw [installFn_zero_count cfg g coroFreeName hZ,
        sum_rgcz_generic coroFreeName g (by decide) (by decide), hfree]
    · rw [installFn_zero_count cfg g coroSuspendName hZ,
        sum_rgcz_generic coroSuspendName g (by decide) (by decide), hsus]
  · intro f0
    exact reactFn_count yieldName (by decide) (by decide) (by decide) (by decide) f0

def c3cfg : Cfg := ⟨4, 4, false⟩

def c3g : Fn :=
  ⟨("main.wait"), Ty.void,
   [(("context"), Ty.i8ptr), (("parentHandle"), Ty.i8ptr)],
   [⟨("entry"), [yieldCallI, Inst.ret none]⟩]⟩

/-- Witness for C3 at a concrete one-yield void function. -/
theorem c3_frame_installation_witness :
    (∀ b ∈ c3g.blocks, noretOkB b.insts = true) ∧
    countFn coroIdName c3g = 0 ∧ countFn coroBeginName c3g = 0 ∧
    countFn coroEndName c3g = 0 ∧ countFn coroFreeName c3g = 0 ∧
    countFn coroSuspendName c3g = 0 ∧ countFn yieldName c3g ≠ 0 ∧
    (countFn coroIdName (installFn c3cfg c3g) = 1 ∧
     countFn coroBeginName (installFn c3cfg c3g) = 1 ∧
     countFn coroEndName (installFn c3cfg c3g) = 1 ∧
     countFn coroFreeName (installFn c3cfg c3g) = 1 ∧
     countFn coroSuspendName (installFn c3cfg c3g) = countFn yieldName c3g) :=
  ⟨by decide, by decide, by decide, by decide, by decide, by decide, by decide,
   (c3_frame_installation c3cfg c3g (by decide) (by decide) (by decide)
     (by decide) (by decide) (by decide)).1 (by decide)⟩

/-! ## C4 — global fix-ups -/

/-- The post-install sweep leaves no `getCoroutine` and no `noret`
whole-function count behind when the function still had a yield. -/
theorem installFn_pos_drop (cfg : Cfg) (g : Fn) (nm : String)
    (hnm : nm = getCoroutineName ∨ nm = noretName)
    (h0 : ¬ countFn yieldName g = 0) :
    countFn nm (installFn cfg g) = 0 := by
  unfold installFn
  rw [if_neg h0, countFn_substAllFn, countFn_mk, List.map_map, List.map_map]
  apply List.sum_eq_zero
  intro x hx
  simp only [List.mem_map] at hx
  obtain ⟨b, _, hb⟩ := hx
  rw [← hb]
  exact sweepInsts_drop _ nm hnm b.insts

theorem rewriteGPHList_count (nm : String) : ∀ (l : List Inst),
    countIn nm (rewriteGPHList l).1
      = if nm = getParentHandleName then 0 else countIn nm l
  | [] => by split_ifs <;> rfl
  | i :: rest => by
    by_cases hi : isCallTo getParentHandleName i = true
    · simp only [rewriteGPHList, hi, if_true]
      rw [rewriteGPHList_count nm rest]
      by_cases h1 : nm = getParentHandleName
      · subst h1
        simp
      · rw [if_neg h1, if_neg h1, countIn_cons,
          isCallTo_ne getParentHandleName nm i hi (Ne.symm h1)]
        simp
    · have hi' : isCallTo getParentHandleName i = false := by simpa using hi
      simp only [rewriteGPHList, hi', Bool.false_eq_true, if_false]
      rw [countIn_cons, rewriteGPHList_count nm rest]
      by_cases h1 : nm = getParentHandleName
      · subst h1
        rw [if_pos rfl, if_pos rfl, hi']
        simp
      · rw [if_neg h1, if_neg h1, countIn_cons]

/-- The `getParentHandle` rewrite fails exactly on a function that uses
`getParentHandle` but whose last parameter is not `parentHandle`, with the
exported-function diagnostic. -/
theorem rewriteGPHFn_error_iff (f : Fn) (e : String) :
    rewriteGPHFn f = .error e ↔
      (countFn getParentHandleName f ≠ 0 ∧
       lastParamName f ≠ some ("parentHandle") ∧
       e = ("trying to make exported function async: ") ++ f.fname) := by
  unfold rewriteGPHFn
  split_ifs with hz hp
  · simp [hz]
  · simp [hp]
  · simp only [Except.error.injEq]
    constructor
    · intro h
      exact ⟨hz, hp, h.symm⟩
    · intro h
      exact h.2.2.symm

theorem rewriteGPHFn_ok (f g' : Fn) (h : rewriteGPHFn f = .ok g') :
    countFn getParentHandleName g' = 0 ∧
    ∀ nm, nm ≠ getParentHandleName → countFn nm g' = countFn nm f := by
  unfold rewriteGPHFn at h
  split_ifs at h with hz hp
  · simp only [Except.ok.injEq] at h
    subst h
    exact ⟨hz, fun nm _ => rfl⟩
  · simp only [Except.ok.injEq] at h
    subst h
    constructor
    · rw [countFn_substAllFn, countFn_mk, List.map_map, List.map_map]
      apply List.sum_eq_zero
      intro x hx
      simp only [List.mem_map] at hx
      obtain ⟨b, _, hb⟩ := hx
      rw [← hb]
      show countIn getParentHandleName (rewriteGPHList b.insts).1 = 0
      rw [rewriteGPHList_count, if_pos rfl]
    · intro nm hnm
      rw [countFn_substAllFn, countFn_mk, List.map_map, List.map_map,
        countFn_mk]
      refine congrArg List.sum (List.map_congr_left ?_)
      intro b _
      show countIn nm (rewriteGPHList b.insts).1 = countIn nm b.insts
      rw [rewriteGPHList_count, if_neg hnm]

theorem countIn_filter_noret (nm : String) (l : List Inst) :
    countIn nm (l.filter (fun i => !(isCallTo noretName i)))
      = if nm = noretName then 0 else countIn nm l := by
  induction l with
  | nil => split_ifs <;> rfl
  | cons i rest ih =>
    by_cases hn : isCallTo noretName i = true
    · simp only [List.filter_cons, hn, Bool.not_true, Bool.false_eq_true,
        if_false]
      rw [ih]
      by_cases h1 : nm = noretName
      · rw [if_pos h1, if_pos h1]
      · rw [if_neg h1, if_neg h1, countIn_cons,
          isCallTo_ne noretName nm i hn (Ne.symm h1)]
        simp
    · have hn' : isCallTo noretName i = false := by simpa using hn
      simp only [List.filter_cons, hn', Bool.not_false, if_true]
      rw [countIn_cons, ih]
      by_cases h1 : nm = noretName
      · subst h1
        rw [if_pos rfl, if_pos rfl, hn']
        simp
      · rw [if_neg h1, if_neg h1, countIn_cons]

theorem eraseNoretFn_count (nm : String) (f : Fn) :
    countFn nm (eraseNoretFn f) = if nm = noretName then 0 else countFn nm f := by
  unfold eraseNoretFn
  rw [countFn_mk, List.map_map]
  by_cases h1 : nm = noretName
  · rw [if_pos h1]
    apply List.sum_eq_zero
    intro x hx
    simp only [List.mem_map] at hx
    obtain ⟨b, _, hb⟩ := hx
    rw [← hb]
    show countIn nm (b.insts.filter (fun i => !(isCallTo noretName i))) = 0
    rw [countIn_filter_noret, if_pos h1]
  · rw [if_neg h1, countFn_mk]
    refine congrArg List.sum (List.map_congr_left ?_)
    intro b _
    show countIn nm (b.insts.filter (fun i => !(isCallTo noretName i)))
      = countIn nm b.insts
    rw [countIn_filter_noret, if_neg h1]

theorem leftover_mem (fs : List Fn) (x : String) :
    x ∈ leftoverGetCoroutineNames fs ↔
      ∃ f ∈ fs, f.fname = x ∧ countFn getCoroutineName f ≠ 0 := by
  simp only [leftoverGetCoroutineNames, List.mem_flatMap, List.mem_replicate]
  constructor
  · rintro ⟨f, hf, hc, rfl⟩
    exact ⟨f, hf, rfl, hc⟩
  · rintro ⟨f, hf, rfl, hc⟩
    exact ⟨f, hf, hc, rfl⟩

theorem leftoverCheck_ok_iff (fs : List Fn) :
    leftoverCheck fs = .ok () ↔ ∀ f ∈ fs, countFn getCoroutineName f = 0 := by
  unfold leftoverCheck
  cases hl : leftoverGetCoroutineNames fs with
  | nil =>
    simp only []
    constructor
    · intro _ f hf
      by_contra hc
      have hmem : f.fname ∈ leftoverGetCoroutineNames fs :=
        (leftover_mem fs f.fname).2 ⟨f, hf, rfl, hc⟩
      rw [hl] at hmem
      cases hmem
    · intro _
      trivial
  | cons a l =>
    simp only []
    constructor
    · intro h
      cases h
    · intro hall
      have ha : a ∈ leftoverGetCoroutineNames fs := by
        rw [hl]
        exact List.mem_cons_self a l
      obtain ⟨f, hf, _, hc⟩ := (leftover_mem fs a).1 ha
      exact absurd (hall f hf) hc

theorem leftoverCheck_error (fs : List Fn)
    (h : ∃ f ∈ fs, countFn getCoroutineName f ≠ 0) :
    leftoverCheck fs = .error (("bad use of getCoroutine: ")
      ++ String.intercalate (",") (leftoverGetCoroutineNames fs)) := by
  unfold leftoverCheck
  cases hl : leftoverGetCoroutineNames fs with
  | nil =>
    obtain ⟨f, hf, hc⟩ := h
    have hmem : f.fname ∈ leftoverGetCoroutineNames fs :=
      (leftover_mem fs f.fname).2 ⟨f, hf, rfl, hc⟩
    rw [hl] at hmem
    cases hmem
  | cons a l => rfl

/-- C4: after frame installation an async function has no `yield` and no
`getCoroutine` call left (so the leftover check passes); the leftover check
succeeds exactly on `getCoroutine`-free functions and otherwise fails with
the diagnostic naming every function that still has a use; the
`getParentHandle` rewrite fails exactly on functions whose last parameter
is not `parentHandle`, and on success removes every `getParentHandle`
call, each result being substituted by the `parentHandle` parameter;
`noret` erasure removes every `noret` call and nothing else; hence the
fully fixed-up function has none of the four internal calls. -/
theorem c4_global_fixups (cfg : Cfg) (g : Fn)
    (hnoret : ∀ b ∈ g.blocks, noretOkB b.insts = true) :
    countFn yieldName (installFn cfg g) = 0 ∧
    countFn getCoroutineName (installFn cfg g) = 0 ∧
    (∀ fs : List Fn, leftoverCheck fs = .ok () ↔
      ∀ f ∈ fs, countFn getCoroutineName f = 0) ∧
    (∀ fs : List Fn, (∃ f ∈ fs, countFn getCoroutineName f ≠ 0) →
      leftoverCheck fs = .error (("bad use of getCoroutine: ")
        ++ String.intercalate (",") (leftoverGetCoroutineNames fs)) ∧
      ∀ x, x ∈ leftoverGetCoroutineNames fs ↔
        ∃ f ∈ fs, f.fname = x ∧ countFn getCoroutineName f ≠ 0) ∧
    (∀ (f' : Fn) (e : String), rewriteGPHFn f' = .error e ↔
      (countFn getParentHandleName f' ≠ 0 ∧
       lastParamName f' ≠ some ("parentHandle") ∧
       e = ("trying to make exported function async: ") ++ f'.fname)) ∧
    (∀ f' g' : Fn, rewriteGPHFn f' = .ok g' →
      countFn getParentHandleName g' = 0 ∧
      ∀ nm, nm ≠ getParentHandleName → countFn nm g' = countFn nm f') ∧
    (∀ f' : Fn, countFn noretName (eraseNoretFn f') = 0 ∧
      ∀ nm, nm ≠ noretName → countFn nm (eraseNoretFn f') = countFn nm f') ∧
    (∀ g' : Fn, rewriteGPHFn (installFn cfg g) = .ok g' →
      countFn yieldName (eraseNoretFn g') = 0 ∧
      countFn getCoroutineName (eraseNoretFn g') = 0 ∧
      countFn getParentHandleName (eraseNoretFn g') = 0 ∧
      countFn noretName (eraseNoretFn g') = 0) := by
  have hA : countFn yieldName (installFn cfg g) = 0 := by
    by_cases h0 : countFn yieldName g = 0
    · rw [installFn_zero_count cfg g yieldName h0,
        sum_rgcz_generic yieldName g (by decide) (by decide), h0]
    · rw [installFn_pos_count cfg g yieldName h0 hnoret (by decide) (by decide)]
      have hp : splitCount yieldName (installPrelude cfg (fnMaxReg g + 1)).1 = 0 := by
        simp [splitCount]
      have hbz : (g.blocks.map (fun b => splitCount yieldName b.insts)).sum = 0 := by
        apply List.sum_eq_zero
        intro x hx
        simp only [List.mem_map] at hx
        obtain ⟨b, _, hbb⟩ := hx
        rw [← hbb]
        simp [splitCount]
      rw [hp, hbz,
        if_neg (by decide : ¬(coroFreeName = yieldName)),
        if_neg (by decide : ¬(freeName = yieldName)),
        if_neg (by decide : ¬(coroEndName = yieldName))]
  have hB : countFn getCoroutineName (installFn cfg g) = 0 := by
    by_cases h0 : countFn yieldName g = 0
    · rw [installFn_zero_count cfg g getCoroutineName h0]
      apply List.sum_eq_zero
      intro x hx
      simp only [List.mem_map] at hx
      obtain ⟨b, _, hbb⟩ := hx
      rw [← hbb]
      simp [rgczCount]
    · exact installFn_pos_drop cfg g getCoroutineName (Or.inl rfl) h0
  refine ⟨hA, hB, leftoverCheck_ok_iff, ?_, rewriteGPHFn_error_iff, rewriteGPHFn_ok,
    ?_, ?_⟩
  · intro fs hfs
    exact ⟨leftoverCheck_error fs hfs, fun x => leftover_mem fs x⟩
  · intro f'
    refine ⟨by rw [eraseNoretFn_count, if_pos rfl], ?_⟩
    intro nm hnm
    rw [eraseNoretFn_count, if_neg hnm]
  · intro g' hok
    obtain ⟨hg1, hg2⟩ := rewriteGPHFn_ok (installFn cfg g) g' hok
    refine ⟨?_, ?_, ?_, ?_⟩
    · rw [eraseNoretFn_count, if_neg (by decide : ¬(yieldName = noretName)),
        hg2 yieldName (by decide), hA]
    · rw [eraseNoretFn_count,
        if_neg (by decide : ¬(getCoroutineName = noretName)),
        hg2 getCoroutineName (by decide), hB]
    · rw [eraseNoretFn_count,
        if_neg (by decide : ¬(getParentHandleName = noretName)), hg1]
    · rw [eraseNoretFn_count, if_pos rfl]

def c4cfg : Cfg := ⟨4, 8, true⟩

def c4g : Fn :=
  ⟨("main.spin"), Ty.void,
   [(("context"), Ty.i8ptr), (("parentHandle"), Ty.i8ptr)],
   [⟨("entry"), [Inst.call none Ty.void yieldName [], noretCallI, Inst.ret none]⟩]⟩

/-- Witness for C4 at a concrete one-yield function: after installation no
yield and no `getCoroutine` call remains. -/
theorem c4_global_fixups_witness :
    (∀ b ∈ c4g.blocks, noretOkB b.insts = true) ∧
    countFn yieldName (installFn c4cfg c4g) = 0 ∧
    countFn getCoroutineName (installFn c4cfg c4g) = 0 :=
  ⟨by decide, (c4_global_fixups c4cfg c4g (by decide)).1,
   (c4_global_fixups c4cfg c4g (by decide)).2.1⟩

/-! ## Concrete witnesses for C1 and C5-C8 -/

/-- A concrete three-function module for C1: `main.bar` calls `yield`,
`main.main` calls `main.bar`, and `main.main` is additionally spawned
through a well-formed `makeGoroutine` ptrtoint (a non-edge). -/
def c1m : UseMap :=
  [("runtime.yield", [FnUse.callUse ("main.bar") false]),
   ("main.bar", [FnUse.callUse ("main.main") false]),
   ("main.main", [FnUse.constPtrToInt [(true, makeGoroutineName)]])]

/-- Witness for C1 on the concrete module `c1m`. -/
theorem c1_async_worklist_witness :
    (keysOf c1m).Nodup ∧
    (markAsyncFuncs c1m ≠ .ok none ∧
     ∀ L, markAsyncFuncs c1m = .ok (some L) →
       L.Nodup ∧ ("resume") ∉ L ∧ ∀ x, x ∈ L ↔ InA c1m x) :=
  ⟨by decide, c1_async_worklist c1m (by decide)⟩

/-- The async list and a blocker function for C5's witness: `main.stop`
calls `yield` and nothing else, so it is classified non-returning. -/
def c5a : List String := [yieldName, ("main.stop")]

def c5f : Fn :=
  ⟨("main.stop"), Ty.void,
   [(("context"), Ty.i8ptr), (("parentHandle"), Ty.i8ptr)],
   [⟨("entry"), [yieldCallI, Inst.ret none]⟩]⟩

/-- Witness for C5: `main.stop` is classified non-returning and the
injection keeps its block count. -/
theorem c5_indefinite_blocker_witness :
    nonReturningFn c5a c5f = true ∧
    (injectFn c5a c5f).blocks.length = c5f.blocks.length :=
  ⟨by decide, ((c5_indefinite_blocker c5a c5f).2.2 (by decide)).1⟩

def c6a : List String := [("main.g")]

def c6used : Nat → Bool := fun _ => false

def c6st : RwSt := ⟨5, none, [], []⟩

def c6args : List Val := [Val.undef Ty.i8ptr, Val.undef Ty.i8ptr]

/-- Witness for C6 at a void tail call to async `main.g` followed by
`ret void`: the tail condition holds and the exact tail emission fires. -/
theorem c6_tail_call_witness :
    (decide ((Ty.void : Ty) = Ty.void) &&
      (decide ((Ty.void : Ty) = Ty.void) || retMatches none none)) = true ∧
    rwInsts c6a [] Ty.void c6used c6st
        (Inst.call none Ty.void ("main.g") c6args :: Inst.ret none :: [])
      = ([Inst.call (some c6st.k) Ty.i8ptr getParentHandleName [],
          Inst.call none Ty.void ("main.g") (setLastArg c6args (Val.reg c6st.k)),
          yieldCallI, noretCallI] ++
         (rwInsts c6a [] Ty.void c6used { c6st with k := c6st.k + 1 }
           ((if (Ty.void : Ty) = Ty.void then Inst.ret none
             else Inst.ret (some (Val.undef Ty.void))) :: [])).1,
         (rwInsts c6a [] Ty.void c6used { c6st with k := c6st.k + 1 }
           ((if (Ty.void : Ty) = Ty.void then Inst.ret none
             else Inst.ret (some (Val.undef Ty.void))) :: [])).2) :=
  ⟨by decide,
   (((c6_tail_call c6a [] Ty.void c6used c6st none Ty.void ("main.g") c6args
       none [] (by decide) (by decide) (by decide) (by decide)).2.1)
     (by decide)).1⟩

def c7f : Fn :=
  ⟨("main.ret"), Ty.void,
   [(("context"), Ty.i8ptr), (("parentHandle"), Ty.i8ptr)],
   [⟨("entry"), [Inst.ret none]⟩]⟩

/-- Witness for C7 on a concrete void function with one return: the
reactivation preserves the return count. -/
theorem c7_return_reactivation_witness :
    countRetFn (reactFn c7f) = countRetFn c7f :=
  (c7_return_reactivation c7f).2.1

def c8f : Fn :=
  ⟨("main.job"), Ty.void,
   [(("context"), Ty.i8ptr), (("parentHandle"), Ty.i8ptr)],
   [⟨("entry"), [yieldCallI, Inst.ret none]⟩]⟩

/-- Witness for C8: `main.job` has one ditchable tail yield, so ditching
applies and removes every yield. -/
theorem c8_tail_yield_witness :
    canDitch c8f.retTy c8f = true ∧ countFn yieldName (ditchFn c8f) = 0 :=
  ⟨by decide, ((c8_tail_yield c8f).2.2.1 (by decide)).1⟩

end TinyGo
